import Mathlib

/-!
Verification of the path-composition and runfile-generation core of the
imod-python repository (src/imod/util.py, src/imod/run.py,
src/imod/wq/pkggroup.py).

The Python code manipulates `datetime.datetime` values (at second precision,
as produced and consumed by the `%Y%m%d%H%M%S` / `%Y%m%d` formats), strings,
insertion-ordered dictionaries (modelled as association lists) and floats for
stress-period durations (modelled as exact rationals: the arithmetic involved
is exact on the values in scope).
-/

namespace Imod

/-- A calendar datetime at second precision, mirroring the fields of a Python
`datetime.datetime` as used by `strftime` with format `%Y%m%d%H%M%S` and by
`strptime`. -/
structure DT where
  year : Nat
  month : Nat
  day : Nat
  hour : Nat
  minute : Nat
  second : Nat
deriving DecidableEq, Repr

/-- Proleptic Gregorian leap-year rule, as implemented by Python
`datetime`. -/
def isLeap (y : Nat) : Bool :=
  (y % 4 == 0 && y % 100 != 0) || y % 400 == 0

/-- Number of days in a month (Python `datetime` rule). Months are
1-indexed; out-of-range months yield 0. -/
def daysInMonth (leap : Bool) (m : Nat) : Nat :=
  match m with
  | 1 => 31 | 2 => if leap then 29 else 28 | 3 => 31 | 4 => 30
  | 5 => 31 | 6 => 30 | 7 => 31 | 8 => 31
  | 9 => 30 | 10 => 31 | 11 => 30 | 12 => 31
  | _ => 0

/-- Days before the start of month `m` within a year. -/
def daysBeforeMonth (leap : Bool) (m : Nat) : Nat :=
  match m with
  | 1 => 0 | 2 => 31 | 3 => if leap then 60 else 59
  | 4 => if leap then 91 else 90 | 5 => if leap then 121 else 120
  | 6 => if leap then 152 else 151 | 7 => if leap then 182 else 181
  | 8 => if leap then 213 else 212 | 9 => if leap then 244 else 243
  | 10 => if leap then 274 else 273 | 11 => if leap then 305 else 304
  | 12 => if leap then 335 else 334
  | _ => 0

/-- Days before January 1st of year `y`, counting from year 1
(CPython `_days_before_year`). -/
def daysBeforeYear (y : Nat) : Nat :=
  365 * (y - 1) + ((y - 1) / 4 + (y - 1) / 400 - (y - 1) / 100)

/-- Proleptic-Gregorian day ordinal of a date (CPython `_ymd2ord`). -/
def ordinalOf (t : DT) : Nat :=
  daysBeforeYear t.year + daysBeforeMonth (isLeap t.year) t.month + t.day

/-- Seconds since the epoch of year 1. Python `datetime` subtraction (the
`timedelta` formed by `end - start`) is the difference of these counts. -/
def toSec (t : DT) : Nat :=
  86400 * ordinalOf t + 3600 * t.hour + 60 * t.minute + t.second

/-- Validity of a datetime: what a constructible Python `datetime` object in
the four-digit-year range guarantees.  Years below 1000 are excluded because
`strftime` with `%Y` is not zero-padded on all platforms; the repository only
handles modern dates. -/
abbrev ValidDT (t : DT) : Prop :=
  1000 ≤ t.year ∧ t.year ≤ 9999 ∧ 1 ≤ t.month ∧ t.month ≤ 12 ∧
  1 ≤ t.day ∧ t.day ≤ daysInMonth (isLeap t.year) t.month ∧
  t.hour ≤ 23 ∧ t.minute ≤ 59 ∧ t.second ≤ 59

/-- Field-lexicographic strict order on datetimes: this is exactly how
CPython compares `datetime` objects (it compares the packed field bytes
lexicographically). -/
abbrev dtLt (a b : DT) : Prop :=
  a.year < b.year ∨ (a.year = b.year ∧
    (a.month < b.month ∨ (a.month = b.month ∧
      (a.day < b.day ∨ (a.day = b.day ∧
        (a.hour < b.hour ∨ (a.hour = b.hour ∧
          (a.minute < b.minute ∨ (a.minute = b.minute ∧
            a.second < b.second)))))))))

theorem daysBeforeYear_succ (y : Nat) (hy : 1 ≤ y) :
    daysBeforeYear (y + 1) =
      daysBeforeYear y + (if isLeap y then 366 else 365) := by
  obtain ⟨n, rfl⟩ : ∃ n, y = n + 1 := ⟨y - 1, by omega⟩
  unfold daysBeforeYear isLeap
  simp only [Nat.add_sub_cancel, Bool.or_eq_true, Bool.and_eq_true, beq_iff_eq,
    bne_iff_ne, ne_eq]
  split <;> omega

theorem daysBeforeYear_le {y1 y2 : Nat} (h : y1 ≤ y2) :
    daysBeforeYear y1 ≤ daysBeforeYear y2 := by
  induction y2 with
  | zero =>
    have : y1 = 0 := by omega
    subst this
    exact le_refl _
  | succ n ih =>
    rcases Nat.lt_or_ge y1 (n + 1) with hlt | hge
    · have h1 : daysBeforeYear y1 ≤ daysBeforeYear n := ih (by omega)
      rcases Nat.eq_zero_or_pos n with rfl | hn
      · have : y1 = 0 := by omega
        subst this
        simp [daysBeforeYear]
      · rw [daysBeforeYear_succ n hn]
        split <;> omega
    · have : y1 = n + 1 := by omega
      subst this
      exact le_refl _

theorem daysBeforeMonth_add_day_le (l : Bool) (m d : Nat)
    (h1 : 1 ≤ m) (h2 : m ≤ 12) (h3 : d ≤ daysInMonth l m) :
    daysBeforeMonth l m + d ≤ if l then 366 else 365 := by
  interval_cases m <;> cases l <;> simp_all [daysBeforeMonth, daysInMonth] <;>
    omega

theorem daysBeforeMonth_mono (l : Bool) (m1 m2 d1 : Nat)
    (hm1 : 1 ≤ m1) (hlt : m1 < m2) (hm2 : m2 ≤ 12)
    (hd : d1 ≤ daysInMonth l m1) :
    daysBeforeMonth l m1 + d1 < daysBeforeMonth l m2 + 1 := by
  have hm11 : m1 ≤ 11 := by omega
  interval_cases m1 <;> interval_cases m2 <;> cases l <;>
    simp_all [daysBeforeMonth, daysInMonth] <;> omega

theorem ordinalOf_lt_of_year_lt {a b : DT} (ha : ValidDT a) (hb : ValidDT b)
    (h : a.year < b.year) : ordinalOf a < ordinalOf b := by
  obtain ⟨hy1, hy2, hm1, hm2, hd1, hd2, _, _, _⟩ := ha
  obtain ⟨hy1', hy2', hm1', hm2', hd1', hd2', _, _, _⟩ := hb
  have step : ordinalOf a ≤ daysBeforeYear (a.year + 1) := by
    unfold ordinalOf
    rw [daysBeforeYear_succ a.year (by omega)]
    have := daysBeforeMonth_add_day_le (isLeap a.year) a.month a.day hm1 hm2 hd2
    split at this <;> split <;> omega
  have mono : daysBeforeYear (a.year + 1) ≤ daysBeforeYear b.year :=
    daysBeforeYear_le (by omega)
  unfold ordinalOf at *
  have hpos : 0 < daysBeforeMonth (isLeap b.year) b.month + b.day := by omega
  omega

theorem ordinalOf_lt_of_dtLt_date {a b : DT} (ha : ValidDT a) (hb : ValidDT b)
    (h : a.year < b.year ∨ (a.year = b.year ∧
      (a.month < b.month ∨ (a.month = b.month ∧ a.day < b.day)))) :
    ordinalOf a < ordinalOf b := by
  rcases h with h | ⟨hy, h⟩
  · exact ordinalOf_lt_of_year_lt ha hb h
  · obtain ⟨hy1, hy2, hm1, hm2, hd1, hd2, _, _, _⟩ := ha
    obtain ⟨hy1', hy2', hm1', hm2', hd1', hd2', _, _, _⟩ := hb
    rcases h with hm | ⟨hmeq, hd⟩
    · have := daysBeforeMonth_mono (isLeap a.year) a.month b.month a.day hm1
        (by omega) (by omega) hd2
      unfold ordinalOf
      rw [hy]
      rw [hy] at this
      omega
    · unfold ordinalOf
      rw [hy, hmeq]
      omega

/-- Strict monotonicity of the second-count with respect to the
field-lexicographic (i.e. Python) comparison of valid datetimes. -/
theorem toSec_lt_of_dtLt {a b : DT} (ha : ValidDT a) (hb : ValidDT b)
    (h : dtLt a b) : toSec a < toSec b := by
  have htouta : a.hour ≤ 23 ∧ a.minute ≤ 59 ∧ a.second ≤ 59 := by
    obtain ⟨_, _, _, _, _, _, h1, h2, h3⟩ := ha; exact ⟨h1, h2, h3⟩
  have htoutb : b.hour ≤ 23 ∧ b.minute ≤ 59 ∧ b.second ≤ 59 := by
    obtain ⟨_, _, _, _, _, _, h1, h2, h3⟩ := hb; exact ⟨h1, h2, h3⟩
  unfold dtLt at h
  rcases h with h | ⟨hy, h⟩
  · have := ordinalOf_lt_of_dtLt_date ha hb (Or.inl h)
    unfold toSec; omega
  · rcases h with h | ⟨hm, h⟩
    · have := ordinalOf_lt_of_dtLt_date ha hb (Or.inr ⟨hy, Or.inl h⟩)
      unfold toSec; omega
    · rcases h with h | ⟨hd, h⟩
      · have := ordinalOf_lt_of_dtLt_date ha hb (Or.inr ⟨hy, Or.inr ⟨hm, h⟩⟩)
        unfold toSec; omega
      · have hord : ordinalOf a = ordinalOf b := by
          unfold ordinalOf; rw [hy, hm, hd]
        unfold toSec
        rw [hord]
        rcases h with h | ⟨hh, h⟩
        · omega
        · rcases h with h | ⟨hmi, h⟩ <;> omega

/-! ## Characters, decimal digits and decimal strings -/

/-- Numeric value of an ASCII digit character (value of `ord(c) - ord("0")`,
truncated at zero for non-digits). -/
def c2d (c : Char) : Nat := c.toNat - 48

/-- ASCII digit test, the character class matched by a `\d` item of the
`strptime` regular expressions on the inputs in scope. -/
def isDig (c : Char) : Bool := decide (48 ≤ c.toNat) && decide (c.toNat ≤ 57)

/-- Zero-padded fixed-width decimal rendering (the low `k` digits of `v`),
as produced by `strftime` field formatting. -/
def pad : Nat → Nat → List Char
  | 0, _ => []
  | k + 1, v => Nat.digitChar (v / 10 ^ k % 10) :: pad k v

/-- The numeric value of a digit string, as computed by Python `int()` on a
string of ASCII digits. -/
def digitsVal (cs : List Char) : Nat := cs.foldl (fun a c => 10 * a + c2d c) 0

/-- Unpadded decimal rendering, fuelled so that it is structurally
recursive (the fuel is always sufficient, see `natReprAux_indep`). -/
def natReprAux : Nat → Nat → List Char
  | 0, n => [Nat.digitChar (n % 10)]
  | fuel + 1, n =>
    if n < 10 then [Nat.digitChar n]
    else natReprAux fuel (n / 10) ++ [Nat.digitChar (n % 10)]

/-- Unpadded decimal rendering of a natural number: Python `str(n)`. -/
def natRepr (n : Nat) : List Char := natReprAux n n

theorem natReprAux_indep (n : Nat) :
    ∀ fuel, n ≤ fuel → natReprAux fuel n = natReprAux n n := by
  induction n using Nat.strong_induction_on with
  | _ n ih =>
    intro fuel hn
    rcases Nat.lt_or_ge n 10 with h10 | h10
    · cases fuel with
      | zero =>
        have : n = 0 := by omega
        subst this
        rfl
      | succ g =>
        cases n with
        | zero => rfl
        | succ m => simp [natReprAux, h10]
    · obtain ⟨m, rfl⟩ : ∃ m, n = m + 1 := ⟨n - 1, by omega⟩
      obtain ⟨g, rfl⟩ : ∃ g, fuel = g + 1 := ⟨fuel - 1, by omega⟩
      have hdiv : (m + 1) / 10 < m + 1 := Nat.div_lt_self (by omega) (by norm_num)
      simp only [natReprAux, if_neg (by omega : ¬ m + 1 < 10)]
      rw [ih ((m + 1) / 10) hdiv g (by omega),
        ih ((m + 1) / 10) hdiv m (by omega)]

theorem natRepr_eq (n : Nat) :
    natRepr n =
      if n < 10 then [Nat.digitChar n]
      else natRepr (n / 10) ++ [Nat.digitChar (n % 10)] := by
  unfold natRepr
  rcases Nat.lt_or_ge n 10 with h10 | h10
  · match n, h10 with
    | 0, _ => rfl
    | (m + 1), h10 => simp [natReprAux, h10]
  · obtain ⟨m, rfl⟩ : ∃ m, n = m + 1 := ⟨n - 1, by omega⟩
    simp only [natReprAux, if_neg (by omega : ¬ m + 1 < 10)]
    have hdiv : (m + 1) / 10 ≤ m := by omega
    rw [natReprAux_indep ((m + 1) / 10) m hdiv]

/-- Python `str(i)` for an integer. -/
def intRepr (i : Int) : List Char :=
  if i < 0 then '-' :: natRepr i.natAbs else natRepr i.toNat

theorem c2d_digitChar {d : Nat} (h : d < 10) : c2d (Nat.digitChar d) = d := by
  interval_cases d <;> rfl

theorem isDig_digitChar {d : Nat} (h : d < 10) :
    isDig (Nat.digitChar d) = true := by
  interval_cases d <;> rfl

theorem isDig_ne_underscore {c : Char} (h : isDig c = true) : c ≠ '_' := by
  intro he
  subst he
  simp [isDig] at h

theorem isDig_ne_dot {c : Char} (h : isDig c = true) : c ≠ '.' := by
  intro he
  subst he
  simp [isDig] at h

theorem pad_length (k v : Nat) : (pad k v).length = k := by
  induction k generalizing v with
  | zero => rfl
  | succ n ih => simp [pad, ih]

theorem pad_all_digit (k v : Nat) : ∀ c ∈ pad k v, isDig c = true := by
  induction k generalizing v with
  | zero => simp [pad]
  | succ n ih =>
    intro c hc
    simp only [pad, List.mem_cons] at hc
    rcases hc with rfl | hc
    · exact isDig_digitChar (Nat.mod_lt _ (by norm_num))
    · exact ih v c hc

theorem digitsVal_foldl_pad (k v a : Nat) :
    (pad k v).foldl (fun a c => 10 * a + c2d c) a = a * 10 ^ k + v % 10 ^ k := by
  induction k generalizing a with
  | zero => simp [pad, Nat.mod_one]
  | succ n ih =>
    have hd : v / 10 ^ n % 10 < 10 := Nat.mod_lt _ (by norm_num)
    have hmod : v % 10 ^ (n + 1) = v % 10 ^ n + 10 ^ n * (v / 10 ^ n % 10) := by
      rw [pow_succ, Nat.mod_mul]
    have hpow : (10 : Nat) ^ (n + 1) = 10 ^ n * 10 := pow_succ 10 n
    simp only [pad, List.foldl_cons]
    rw [ih, c2d_digitChar hd, hmod, hpow]
    ring

theorem digitsVal_pad {k v : Nat} (h : v < 10 ^ k) : digitsVal (pad k v) = v := by
  unfold digitsVal
  rw [digitsVal_foldl_pad]
  simp [Nat.mod_eq_of_lt h]

theorem digitsVal_append_singleton (cs : List Char) (c : Char) :
    digitsVal (cs ++ [c]) = 10 * digitsVal cs + c2d c := by
  unfold digitsVal
  rw [List.foldl_append]
  rfl

theorem natRepr_val (n : Nat) : digitsVal (natRepr n) = n := by
  induction n using Nat.strong_induction_on with
  | _ n ih =>
    rw [natRepr_eq]
    split
    · next h =>
      simp [digitsVal, c2d_digitChar h]
    · next h =>
      rw [digitsVal_append_singleton]
      rw [ih (n / 10) (Nat.div_lt_self (by omega) (by norm_num))]
      rw [c2d_digitChar (Nat.mod_lt _ (by norm_num))]
      omega

theorem natRepr_ne_nil (n : Nat) : natRepr n ≠ [] := by
  rw [natRepr_eq]
  split <;> simp

theorem natRepr_all_digit (n : Nat) : ∀ c ∈ natRepr n, isDig c = true := by
  induction n using Nat.strong_induction_on with
  | _ n ih =>
    rw [natRepr_eq]
    split
    · next h =>
      simp only [List.mem_singleton]
      rintro c rfl
      exact isDig_digitChar h
    · next h =>
      intro c hc
      simp only [List.mem_append, List.mem_singleton] at hc
      rcases hc with hc | rfl
      · exact ih (n / 10) (Nat.div_lt_self (by omega) (by norm_num)) c hc
      · exact isDig_digitChar (Nat.mod_lt _ (by norm_num))

/-! ## Splitting on a separator: Python `str.split(sep)` for a single
character separator. -/

def splitOnChar (sep : Char) : List Char → List (List Char)
  | [] => [[]]
  | c :: cs =>
    match splitOnChar sep cs with
    | [] => [[]]
    | h :: t => if c = sep then [] :: h :: t else (c :: h) :: t

theorem splitOnChar_ne_nil (sep : Char) (cs : List Char) :
    splitOnChar sep cs ≠ [] := by
  induction cs with
  | nil => simp [splitOnChar]
  | cons c cs ih =>
    simp only [splitOnChar]
    split
    · simp_all
    · split <;> simp

theorem splitOnChar_nosep {sep : Char} {cs : List Char}
    (h : ∀ c ∈ cs, c ≠ sep) : splitOnChar sep cs = [cs] := by
  induction cs with
  | nil => rfl
  | cons c cs ih =>
    have hc : c ≠ sep := h c (List.mem_cons_self _ _)
    have ht : splitOnChar sep cs = [cs] := ih (fun x hx => h x (List.mem_cons_of_mem _ hx))
    simp only [splitOnChar, ht]
    simp [hc]

theorem splitOnChar_append {sep : Char} {a : List Char} (b : List Char)
    (h : ∀ c ∈ a, c ≠ sep) :
    splitOnChar sep (a ++ sep :: b) = a :: splitOnChar sep b := by
  induction a with
  | nil =>
    cases hsp : splitOnChar sep b with
    | nil => exact absurd hsp (splitOnChar_ne_nil sep b)
    | cons h1 t1 =>
      simp [splitOnChar, hsp]
  | cons c cs ih =>
    have hc : c ≠ sep := h c (List.mem_cons_self _ _)
    have ht := ih (fun x hx => h x (List.mem_cons_of_mem _ hx))
    simp only [List.cons_append, splitOnChar, List.append_eq]
    rw [ht]
    simp [hc]

/-! ## The final-dot split used by `pathlib` for `Path.stem` and
`Path.suffix`. -/

/-- Splits `cs` at its last dot: `some (p, q)` with `cs = p ++ dot :: q` and
`q` dot-free, or `none` if there is no dot. -/
def lastDotSplit : List Char → Option (List Char × List Char)
  | [] => none
  | c :: cs =>
    match lastDotSplit cs with
    | some (p, q) => some (c :: p, q)
    | none => if c = '.' then some ([], cs) else none

/-- `(stem, suffix)` of a file name, following the `pathlib` rule: the suffix
starts at the last dot provided it is neither the first character nor the
last. -/
def stemSuffix (cs : List Char) : List Char × List Char :=
  match lastDotSplit cs with
  | some (p, q) => if p ≠ [] ∧ q ≠ [] then (p, '.' :: q) else (cs, [])
  | none => (cs, [])

theorem lastDotSplit_none {cs : List Char} (h : ∀ c ∈ cs, c ≠ '.') :
    lastDotSplit cs = none := by
  induction cs with
  | nil => rfl
  | cons c cs ih =>
    have hc : c ≠ '.' := h c (List.mem_cons_self _ _)
    have ht : lastDotSplit cs = none := ih (fun x hx => h x (List.mem_cons_of_mem _ hx))
    simp [lastDotSplit, ht, hc]

theorem lastDotSplit_append {q : List Char} (p : List Char)
    (h : ∀ c ∈ q, c ≠ '.') :
    lastDotSplit (p ++ '.' :: q) = some (p, q) := by
  induction p with
  | nil =>
    simp [lastDotSplit, lastDotSplit_none h]
  | cons c cs ih =>
    simp [lastDotSplit, ih]

theorem stemSuffix_nodot {cs : List Char} (h : ∀ c ∈ cs, c ≠ '.') :
    stemSuffix cs = (cs, []) := by
  simp [stemSuffix, lastDotSplit_none h]

theorem stemSuffix_ext {p e : List Char} (hp : p ≠ []) (he : e ≠ [])
    (hd : ∀ c ∈ e, c ≠ '.') :
    stemSuffix (p ++ '.' :: e) = (p, '.' :: e) := by
  simp [stemSuffix, lastDotSplit_append p hd, hp, he]

/-! ## `datetime.strptime`

CPython `_strptime` compiles each format directive into a regular
expression alternation and matches the concatenation as a prefix of the
input with ordered-alternative backtracking; afterwards it raises if input
characters are left over, and the `datetime` constructor validates the
ranges.  The matchers below are the exact character classes of `TimeRE`:
`%Y` is four digits, `%m` is `1[0-2] | 0[1-9] | [1-9]`, `%d` is
`3[01] | [12]\d | 0[1-9] | [1-9]`, `%H` is `2[0-3] | [0-1]\d | \d`,
`%M` is `[0-5]\d | \d` and `%S` is `6[0-1] | [0-5]\d | \d`. -/

/-- Matcher for the `1[0-2]` alternative. -/
def mTens02 : List Char → Option (Nat × List Char)
  | c1 :: c2 :: rest =>
    if c1 = '1' ∧ isDig c2 = true ∧ c2d c2 ≤ 2 then some (10 + c2d c2, rest)
    else none
  | _ => none

/-- Matcher for the `0[1-9]` alternative. -/
def mZeroNine : List Char → Option (Nat × List Char)
  | c1 :: c2 :: rest =>
    if c1 = '0' ∧ isDig c2 = true ∧ 1 ≤ c2d c2 then some (c2d c2, rest)
    else none
  | _ => none

/-- Matcher for the `[1-9]` alternative. -/
def mOneNine : List Char → Option (Nat × List Char)
  | c :: rest =>
    if isDig c = true ∧ 1 ≤ c2d c then some (c2d c, rest) else none
  | _ => none

/-- Matcher for the `3[01]` alternative. -/
def mThirty01 : List Char → Option (Nat × List Char)
  | c1 :: c2 :: rest =>
    if c1 = '3' ∧ (c2 = '0' ∨ c2 = '1') then some (30 + c2d c2, rest) else none
  | _ => none

/-- Matcher for the `[12]\d` alternative. -/
def mTeens : List Char → Option (Nat × List Char)
  | c1 :: c2 :: rest =>
    if (c1 = '1' ∨ c1 = '2') ∧ isDig c2 = true then
      some (10 * c2d c1 + c2d c2, rest)
    else none
  | _ => none

/-- Matcher for the `2[0-3]` alternative. -/
def mTwenty03 : List Char → Option (Nat × List Char)
  | c1 :: c2 :: rest =>
    if c1 = '2' ∧ isDig c2 = true ∧ c2d c2 ≤ 3 then some (20 + c2d c2, rest)
    else none
  | _ => none

/-- Matcher for the `[0-1]\d` alternative. -/
def mZeroOne : List Char → Option (Nat × List Char)
  | c1 :: c2 :: rest =>
    if (c1 = '0' ∨ c1 = '1') ∧ isDig c2 = true then
      some (10 * c2d c1 + c2d c2, rest)
    else none
  | _ => none

/-- Matcher for the `\d` alternative. -/
def mAnyDigit : List Char → Option (Nat × List Char)
  | c :: rest => if isDig c = true then some (c2d c, rest) else none
  | _ => none

/-- Matcher for the `[0-5]\d` alternative. -/
def mFifty : List Char → Option (Nat × List Char)
  | c1 :: c2 :: rest =>
    if isDig c1 = true ∧ c2d c1 ≤ 5 ∧ isDig c2 = true then
      some (10 * c2d c1 + c2d c2, rest)
    else none
  | _ => none

/-- Matcher for the `6[0-1]` alternative. -/
def mSixty01 : List Char → Option (Nat × List Char)
  | c1 :: c2 :: rest =>
    if c1 = '6' ∧ (c2 = '0' ∨ c2 = '1') then some (60 + c2d c2, rest) else none
  | _ => none

/-- Matcher for `%Y`: exactly four digits. -/
def mYear : List Char → Option (Nat × List Char)
  | a :: b :: c :: d :: rest =>
    if isDig a = true ∧ isDig b = true ∧ isDig c = true ∧ isDig d = true then
      some (digitsVal [a, b, c, d], rest)
    else none
  | _ => none

def monthAlts : List (List Char → Option (Nat × List Char)) :=
  [mTens02, mZeroNine, mOneNine]

def dayAlts : List (List Char → Option (Nat × List Char)) :=
  [mThirty01, mTeens, mZeroNine, mOneNine]

def hourAlts : List (List Char → Option (Nat × List Char)) :=
  [mTwenty03, mZeroOne, mAnyDigit]

def minuteAlts : List (List Char → Option (Nat × List Char)) :=
  [mFifty, mAnyDigit]

def secondAlts : List (List Char → Option (Nat × List Char)) :=
  [mSixty01, mFifty, mAnyDigit]

/-- Ordered-alternative matching of a sequence of fields with backtracking,
exactly the search a regex engine performs on the concatenation of
alternation groups: alternatives of each field are tried in order, and a
failure of the remaining fields falls back to the next alternative. -/
def matchFields :
    List (List (List Char → Option (Nat × List Char))) → List Char →
      Option (List Nat × List Char)
  | [], cs => some ([], cs)
  | alts :: fs, cs =>
    alts.findSome? fun m =>
      (m cs).bind fun p =>
        (matchFields fs p.2).map fun q => (p.1 :: q.1, q.2)

/-- The validation performed by the `datetime` constructor after a
successful `strptime` match. -/
def pyValidB (t : DT) : Bool :=
  decide (1 ≤ t.year) && decide (t.year ≤ 9999) && decide (1 ≤ t.month) &&
  decide (t.month ≤ 12) && decide (1 ≤ t.day) &&
  decide (t.day ≤ daysInMonth (isLeap t.year) t.month) &&
  decide (t.hour ≤ 23) && decide (t.minute ≤ 59) && decide (t.second ≤ 59)

/-- `datetime.strptime(s, "%Y%m%d%H%M%S")`, returning `none` where Python
raises `ValueError` (match failure, leftover characters, or constructor
validation). -/
def strptimeYmdHMS (cs : List Char) : Option DT :=
  match mYear cs with
  | none => none
  | some (y, rest) =>
    match matchFields [monthAlts, dayAlts, hourAlts, minuteAlts, secondAlts]
        rest with
    | none => none
    | some (vals, leftover) =>
      match vals, leftover with
      | [mo, d, h, mi, s], [] =>
        let t : DT := ⟨y, mo, d, h, mi, s⟩
        if pyValidB t then some t else none
      | _, _ => none

/-- `datetime.strptime(s, "%Y%m%d")` (unset fields default to zero). -/
def strptimeYmd (cs : List Char) : Option DT :=
  match mYear cs with
  | none => none
  | some (y, rest) =>
    match matchFields [monthAlts, dayAlts] rest with
    | none => none
    | some (vals, leftover) =>
      match vals, leftover with
      | [mo, d], [] =>
        let t : DT := ⟨y, mo, d, 0, 0, 0⟩
        if pyValidB t then some t else none
      | _, _ => none

/-- `t.strftime("%Y%m%d%H%M%S")`. -/
def fmt14 (t : DT) : List Char :=
  pad 4 t.year ++ pad 2 t.month ++ pad 2 t.day ++ pad 2 t.hour ++
    pad 2 t.minute ++ pad 2 t.second

theorem pad_two (v : Nat) :
    pad 2 v = [Nat.digitChar (v / 10 % 10), Nat.digitChar (v % 10)] := by
  simp [pad]

theorem pad_four (v : Nat) :
    pad 4 v = [Nat.digitChar (v / 1000 % 10), Nat.digitChar (v / 100 % 10),
      Nat.digitChar (v / 10 % 10), Nat.digitChar (v % 10)] := by
  norm_num [pad]

theorem mYear_pad {y : Nat} (hy : y ≤ 9999) (X : List Char) :
    mYear (pad 4 y ++ X) = some (y, X) := by
  have h1 : y / 1000 % 10 < 10 := Nat.mod_lt _ (by norm_num)
  have h2 : y / 100 % 10 < 10 := Nat.mod_lt _ (by norm_num)
  have h3 : y / 10 % 10 < 10 := Nat.mod_lt _ (by norm_num)
  have h4 : y % 10 < 10 := Nat.mod_lt _ (by norm_num)
  rw [pad_four]
  simp only [List.cons_append, List.nil_append, mYear]
  rw [if_pos ⟨isDig_digitChar h1, isDig_digitChar h2, isDig_digitChar h3,
    isDig_digitChar h4⟩]
  have hv : digitsVal [Nat.digitChar (y / 1000 % 10),
      Nat.digitChar (y / 100 % 10), Nat.digitChar (y / 10 % 10),
      Nat.digitChar (y % 10)] = y := by
    rw [← pad_four]
    exact digitsVal_pad (by omega)
  rw [hv]

theorem monthAlts_step {fs : List (List (List Char → Option (Nat × List Char)))}
    {X : List Char} {vs : List Nat} {r : List Char} (mo : Nat)
    (hlo : 1 ≤ mo) (hhi : mo ≤ 12)
    (hk : matchFields fs X = some (vs, r)) :
    matchFields (monthAlts :: fs) (pad 2 mo ++ X) = some (mo :: vs, r) := by
  rw [pad_two]
  rcases Nat.lt_or_ge mo 10 with hlt | hge
  · have e1 : mo / 10 % 10 = 0 := by omega
    have e2 : mo % 10 = mo := by omega
    rw [e1, e2, show Nat.digitChar 0 = '0' from rfl]
    have t1 : mTens02 ('0' :: Nat.digitChar mo :: X) = none := by
      simp [mTens02]
    have t2 : mZeroNine ('0' :: Nat.digitChar mo :: X) = some (mo, X) := by
      simp [mZeroNine, isDig_digitChar hlt, c2d_digitChar hlt, hlo]
    simp [matchFields, monthAlts, List.findSome?_cons, t1, t2, hk]
  · have e1 : mo / 10 % 10 = 1 := by omega
    rw [e1, show Nat.digitChar 1 = '1' from rfl]
    have hm : mo % 10 < 10 := Nat.mod_lt _ (by norm_num)
    have hv : 10 + mo % 10 = mo := by omega
    have hb : mo % 10 ≤ 2 := by omega
    have t1 : mTens02 ('1' :: Nat.digitChar (mo % 10) :: X) =
        some (mo, X) := by
      simp [mTens02, isDig_digitChar hm, c2d_digitChar hm, hv, hb]
    simp [matchFields, monthAlts, List.findSome?_cons, t1, hk]

theorem dayAlts_step {fs : List (List (List Char → Option (Nat × List Char)))}
    {X : List Char} {vs : List Nat} {r : List Char} (d : Nat)
    (hlo : 1 ≤ d) (hhi : d ≤ 31)
    (hk : matchFields fs X = some (vs, r)) :
    matchFields (dayAlts :: fs) (pad 2 d ++ X) = some (d :: vs, r) := by
  rw [pad_two]
  have hm : d % 10 < 10 := Nat.mod_lt _ (by norm_num)
  rcases Nat.lt_or_ge d 10 with hlt | hge
  · have e1 : d / 10 % 10 = 0 := by omega
    have e2 : d % 10 = d := by omega
    rw [e1, e2, show Nat.digitChar 0 = '0' from rfl]
    have t1 : mThirty01 ('0' :: Nat.digitChar d :: X) = none := by
      simp [mThirty01]
    have t2 : mTeens ('0' :: Nat.digitChar d :: X) = none := by
      simp [mTeens]
    have t3 : mZeroNine ('0' :: Nat.digitChar d :: X) = some (d, X) := by
      simp [mZeroNine, isDig_digitChar hlt, c2d_digitChar hlt, hlo]
    simp [matchFields, dayAlts, List.findSome?_cons, t1, t2, t3, hk]
  · rcases Nat.lt_or_ge d 30 with hlt30 | hge30
    · rcases Nat.lt_or_ge d 20 with hlt20 | hge20
      · have e1 : d / 10 % 10 = 1 := by omega
        rw [e1, show Nat.digitChar 1 = '1' from rfl]
        have hv : 10 * c2d '1' + d % 10 = d := by
          rw [show c2d '1' = 1 from rfl]
          omega
        have t1 : mThirty01 ('1' :: Nat.digitChar (d % 10) :: X) = none := by
          simp [mThirty01]
        have t2 : mTeens ('1' :: Nat.digitChar (d % 10) :: X) =
            some (d, X) := by
          simp [mTeens, isDig_digitChar hm, c2d_digitChar hm, hv]
        simp [matchFields, dayAlts, List.findSome?_cons, t1, t2, hk]
      · have e1 : d / 10 % 10 = 2 := by omega
        rw [e1, show Nat.digitChar 2 = '2' from rfl]
        have hv : 10 * c2d '2' + d % 10 = d := by
          rw [show c2d '2' = 2 from rfl]
          omega
        have t1 : mThirty01 ('2' :: Nat.digitChar (d % 10) :: X) = none := by
          simp [mThirty01]
        have t2 : mTeens ('2' :: Nat.digitChar (d % 10) :: X) =
            some (d, X) := by
          simp [mTeens, isDig_digitChar hm, c2d_digitChar hm, hv]
        simp [matchFields, dayAlts, List.findSome?_cons, t1, t2, hk]
    · have e1 : d / 10 % 10 = 3 := by omega
      rw [e1, show Nat.digitChar 3 = '3' from rfl]
      have hd2 : d % 10 = 0 ∨ d % 10 = 1 := by omega
      have t1 : mThirty01 ('3' :: Nat.digitChar (d % 10) :: X) =
          some (d, X) := by
        rcases hd2 with h | h
        · rw [h, show Nat.digitChar 0 = '0' from rfl]
          have hv : 30 + c2d '0' = d := by
            rw [show c2d '0' = 0 from rfl]
            omega
          simp [mThirty01, hv]
        · rw [h, show Nat.digitChar 1 = '1' from rfl]
          have hv : 30 + c2d '1' = d := by
            rw [show c2d '1' = 1 from rfl]
            omega
          simp [mThirty01, hv]
      simp [matchFields, dayAlts, List.findSome?_cons, t1, hk]

theorem hourAlts_step {fs : List (List (List Char → Option (Nat × List Char)))}
    {X : List Char} {vs : List Nat} {r : List Char} (h : Nat)
    (hhi : h ≤ 23)
    (hk : matchFields fs X = some (vs, r)) :
    matchFields (hourAlts :: fs) (pad 2 h ++ X) = some (h :: vs, r) := by
  rw [pad_two]
  have hm : h % 10 < 10 := Nat.mod_lt _ (by norm_num)
  rcases Nat.lt_or_ge h 10 with hlt | hge
  · have e1 : h / 10 % 10 = 0 := by omega
    rw [e1, show Nat.digitChar 0 = '0' from rfl]
    have hv : 10 * c2d '0' + h % 10 = h := by
      rw [show c2d '0' = 0 from rfl]
      omega
    have t1 : mTwenty03 ('0' :: Nat.digitChar (h % 10) :: X) = none := by
      simp [mTwenty03]
    have t2 : mZeroOne ('0' :: Nat.digitChar (h % 10) :: X) =
        some (h, X) := by
      simp [mZeroOne, isDig_digitChar hm, c2d_digitChar hm, hv]
    simp [matchFields, hourAlts, List.findSome?_cons, t1, t2, hk]
  · rcases Nat.lt_or_ge h 20 with hlt20 | hge20
    · have e1 : h / 10 % 10 = 1 := by omega
      rw [e1, show Nat.digitChar 1 = '1' from rfl]
      have hv : 10 * c2d '1' + h % 10 = h := by
        rw [show c2d '1' = 1 from rfl]
        omega
      have t1 : mTwenty03 ('1' :: Nat.digitChar (h % 10) :: X) = none := by
        simp [mTwenty03]
      have t2 : mZeroOne ('1' :: Nat.digitChar (h % 10) :: X) =
          some (h, X) := by
        simp [mZeroOne, isDig_digitChar hm, c2d_digitChar hm, hv]
      simp [matchFields, hourAlts, List.findSome?_cons, t1, t2, hk]
    · have e1 : h / 10 % 10 = 2 := by omega
      rw [e1, show Nat.digitChar 2 = '2' from rfl]
      have hv : 20 + h % 10 = h := by omega
      have hb : h % 10 ≤ 3 := by omega
      have t1 : mTwenty03 ('2' :: Nat.digitChar (h % 10) :: X) =
          some (h, X) := by
        simp [mTwenty03, isDig_digitChar hm, c2d_digitChar hm, hv, hb]
      simp [matchFields, hourAlts, List.findSome?_cons, t1, hk]

theorem minuteAlts_step
    {fs : List (List (List Char → Option (Nat × List Char)))}
    {X : List Char} {vs : List Nat} {r : List Char} (mi : Nat)
    (hhi : mi ≤ 59)
    (hk : matchFields fs X = some (vs, r)) :
    matchFields (minuteAlts :: fs) (pad 2 mi ++ X) = some (mi :: vs, r) := by
  rw [pad_two]
  have h1 : mi / 10 % 10 < 10 := Nat.mod_lt _ (by norm_num)
  have h2 : mi % 10 < 10 := Nat.mod_lt _ (by norm_num)
  have hb : mi / 10 % 10 ≤ 5 := by omega
  have hv : 10 * (mi / 10 % 10) + mi % 10 = mi := by omega
  have t1 : mFifty (Nat.digitChar (mi / 10 % 10) ::
      Nat.digitChar (mi % 10) :: X) = some (mi, X) := by
    simp [mFifty, isDig_digitChar h1, isDig_digitChar h2, c2d_digitChar h1,
      c2d_digitChar h2, hb, hv]
  simp [matchFields, minuteAlts, List.findSome?_cons, t1, hk]

theorem secondAlts_step
    {fs : List (List (List Char → Option (Nat × List Char)))}
    {X : List Char} {vs : List Nat} {r : List Char} (s : Nat)
    (hhi : s ≤ 59)
    (hk : matchFields fs X = some (vs, r)) :
    matchFields (secondAlts :: fs) (pad 2 s ++ X) = some (s :: vs, r) := by
  rw [pad_two]
  have h1 : s / 10 % 10 < 10 := Nat.mod_lt _ (by norm_num)
  have h2 : s % 10 < 10 := Nat.mod_lt _ (by norm_num)
  have hb : s / 10 % 10 ≤ 5 := by omega
  have hv : 10 * (s / 10 % 10) + s % 10 = s := by omega
  have hne : Nat.digitChar (s / 10 % 10) ≠ '6' := by
    intro hc
    have := c2d_digitChar h1
    rw [hc, show c2d '6' = 6 from rfl] at this
    omega
  have t0 : mSixty01 (Nat.digitChar (s / 10 % 10) ::
      Nat.digitChar (s % 10) :: X) = none := by
    simp [mSixty01, hne]
  have t1 : mFifty (Nat.digitChar (s / 10 % 10) ::
      Nat.digitChar (s % 10) :: X) = some (s, X) := by
    simp [mFifty, isDig_digitChar h1, isDig_digitChar h2, c2d_digitChar h1,
      c2d_digitChar h2, hb, hv]
  simp [matchFields, secondAlts, List.findSome?_cons, t0, t1, hk]

theorem daysInMonth_le (l : Bool) (m : Nat) : daysInMonth l m ≤ 31 := by
  unfold daysInMonth
  split <;> first | omega | (split <;> omega)

/-- Round trip: parsing a formatted valid datetime with the
`%Y%m%d%H%M%S` format recovers it. -/
theorem strptimeYmdHMS_fmt14 {t : DT} (h : ValidDT t) :
    strptimeYmdHMS (fmt14 t) = some t := by
  obtain ⟨y, mo, d, hh, mi, s⟩ := t
  obtain ⟨h1, h2, h3, h4, h5, h6, h7, h8, h9⟩ := h
  simp only at h1 h2 h3 h4 h5 h6 h7 h8 h9
  have assoc : fmt14 ⟨y, mo, d, hh, mi, s⟩ =
      pad 4 y ++ (pad 2 mo ++ (pad 2 d ++ (pad 2 hh ++
        (pad 2 mi ++ (pad 2 s ++ []))))) := by
    simp [fmt14]
  have hbase : matchFields [] [] = some ([], []) := rfl
  have hsec := @secondAlts_step [] [] _ _ s h9 hbase
  have hmin := minuteAlts_step mi h8 hsec
  have hhr := hourAlts_step hh h7 hmin
  have hday := dayAlts_step d h5 (le_trans h6 (daysInMonth_le _ _)) hhr
  have hmon := monthAlts_step mo h3 h4 hday
  unfold strptimeYmdHMS
  rw [assoc, mYear_pad h2]
  have hv : pyValidB ⟨y, mo, d, hh, mi, s⟩ = true := by
    unfold pyValidB
    simp only [Bool.and_eq_true, decide_eq_true_eq]
    exact ⟨⟨⟨⟨⟨⟨⟨⟨by omega, by omega⟩, by omega⟩, by omega⟩, by omega⟩, h6⟩,
      by omega⟩, by omega⟩, by omega⟩
  simp only [List.append_nil] at hmon
  simp [hmon, hv]

/-! ## src/imod/util.py : `decompose` and `compose` -/

/-- The parts record handled by `compose` and returned by `decompose`
(the `directory` entry is dropped: the claims under verification only
compare name, layer, extension and time, and the file name logic is
independent of the directory part). -/
structure PParts where
  extension : List Char
  name : List Char
  time : Option DT
  layer : Option Int
deriving DecidableEq, Repr

/-- Python exceptions raised by the translated functions. -/
inductive PErr where
  | assertionError
  | keyError (k : String)
  | valueError
  | typeError
  | indexError
  | runtimeError
deriving DecidableEq, Repr

/-- One iteration body of the time scan: try `%Y%m%d%H%M%S`, then
`%Y%m%d`. -/
def parseSeg (cs : List Char) : Option DT :=
  match strptimeYmdHMS cs with
  | some t => some t
  | none => strptimeYmd cs

/-- The `for s in parts` loop of `decompose`: the first segment parsing as a
timestamp wins and the scan stops. -/
def scanTime : List (List Char) → Option DT
  | [] => none
  | p :: ps =>
    match parseSeg p with
    | some t => some t
    | none => scanTime ps

/-- The regex `^l\d+$` with `re.IGNORECASE`. -/
def isLayerTok : List Char → Bool
  | c :: rest =>
    (c == 'l' || c == 'L') && decide (rest ≠ []) && rest.all isDig
  | [] => false

/-- `imod.util.decompose` (file-name part): split the stem on underscores,
take the first segment as the name (`assert name != ""`), scan all segments
for a timestamp, and read the layer from the last segment when it matches
`l<digits>`. -/
def decompose (fname : List Char) : Except PErr PParts :=
  let ss := stemSuffix fname
  match splitOnChar '_' ss.1 with
  | [] => .error .valueError
  | name :: rest =>
    if name = [] then .error .assertionError
    else
      .ok { extension := ss.2
            name := name
            time := scanTime (name :: rest)
            layer :=
              if isLayerTok ((name :: rest).getLast (List.cons_ne_nil _ _)) then
                some ((digitsVal (((name :: rest).getLast
                  (List.cons_ne_nil _ _)).drop 1) : Nat) : Int)
              else none }

/-- `imod.util.compose` (file-name part): `name[_time][_l<layer>]<ext>`,
with the time rendered by `strftime` and the layer by `str(int(layer))`. -/
def compose (p : PParts) : List Char :=
  match p.layer, p.time with
  | some k, some t =>
    p.name ++ ('_' :: fmt14 t) ++ ('_' :: 'l' :: intRepr k) ++ p.extension
  | some k, none => p.name ++ ('_' :: 'l' :: intRepr k) ++ p.extension
  | none, some t => p.name ++ ('_' :: fmt14 t) ++ p.extension
  | none, none => p.name ++ p.extension

theorem scanTime_eq_findSome (ps : List (List Char)) :
    scanTime ps = ps.findSome? parseSeg := by
  induction ps with
  | nil => rfl
  | cons p ps ih =>
    simp only [scanTime, List.findSome?_cons]
    cases parseSeg p <;> simp [ih]

theorem fmt14_all_digit (t : DT) : ∀ c ∈ fmt14 t, isDig c = true := by
  intro c hc
  simp only [fmt14, List.mem_append] at hc
  rcases hc with ((((hc | hc) | hc) | hc) | hc) | hc <;>
    exact pad_all_digit _ _ c hc

theorem mYear_not_digit {c : Char} (h : isDig c = false) (cs : List Char) :
    mYear (c :: cs) = none := by
  match cs with
  | [] => rfl
  | [b] => rfl
  | [b, d] => rfl
  | b :: d :: e :: rest =>
    simp [mYear, h]

theorem parseSeg_not_digit {c : Char} (h : isDig c = false) (cs : List Char) :
    parseSeg (c :: cs) = none := by
  unfold parseSeg strptimeYmdHMS strptimeYmd
  rw [mYear_not_digit h]

theorem parseSeg_fmt14 {t : DT} (h : ValidDT t) : parseSeg (fmt14 t) = some t := by
  unfold parseSeg
  rw [strptimeYmdHMS_fmt14 h]

theorem isLayerTok_natRepr (k : Nat) : isLayerTok ('l' :: natRepr k) = true := by
  have h1 : ('l' == 'l' || 'l' == 'L') = true := rfl
  simp only [isLayerTok, h1, Bool.true_and, Bool.and_eq_true,
    decide_eq_true_eq, List.all_eq_true]
  exact ⟨natRepr_ne_nil k, fun c hc => natRepr_all_digit k c hc⟩

theorem intRepr_ofNat (k : Nat) : intRepr (k : Int) = natRepr k := by
  unfold intRepr
  rw [if_neg (by omega : ¬ (k : Int) < 0)]
  simp

theorem fmt14_no_underscore (t : DT) : ∀ c ∈ fmt14 t, c ≠ '_' :=
  fun c hc => isDig_ne_underscore (fmt14_all_digit t c hc)

theorem fmt14_no_dot (t : DT) : ∀ c ∈ fmt14 t, c ≠ '.' :=
  fun c hc => isDig_ne_dot (fmt14_all_digit t c hc)

theorem ltok_no_underscore (k : Nat) : ∀ c ∈ 'l' :: natRepr k, c ≠ '_' := by
  intro c hc
  rcases List.mem_cons.mp hc with rfl | hc
  · decide
  · exact isDig_ne_underscore (natRepr_all_digit k c hc)

theorem ltok_no_dot (k : Nat) : ∀ c ∈ 'l' :: natRepr k, c ≠ '.' := by
  intro c hc
  rcases List.mem_cons.mp hc with rfl | hc
  · decide
  · exact isDig_ne_dot (natRepr_all_digit k c hc)

/-- C1, the claim as frozen, is false on the code: with an integer layer of
`-1` the composed name ends in `l-1`, which the layer pattern `l\d+` does
not match, so `decompose` drops the layer and the round trip loses it. -/
theorem c1_counterexample :
    decompose (compose ⟨('.' :: 'i' :: 'd' :: 'f' :: []),
        ('h' :: 'e' :: 'a' :: 'd' :: []), none, some (-1)⟩) =
      .ok ⟨('.' :: 'i' :: 'd' :: 'f' :: []),
        ('h' :: 'e' :: 'a' :: 'd' :: []), none, none⟩ ∧
    (⟨('.' :: 'i' :: 'd' :: 'f' :: []), ('h' :: 'e' :: 'a' :: 'd' :: []),
        none, none⟩ : PParts) ≠
      ⟨('.' :: 'i' :: 'd' :: 'f' :: []), ('h' :: 'e' :: 'a' :: 'd' :: []),
        none, some (-1)⟩ := by
  constructor
  · rfl
  · decide

/-- C1 amended: the round trip holds for records with a nonnegative layer
(and a well-formed name and extension). -/
theorem c1_roundtrip (name ext : List Char) (k : Nat) (t? : Option DT)
    (hne : name ≠ []) (hu : '_' ∉ name) (hdot : '.' ∉ name)
    (h14 : strptimeYmdHMS name = none) (h8 : strptimeYmd name = none)
    (hlay : isLayerTok name = false)
    (ht : ∀ t, t? = some t → ValidDT t)
    (hext : ext = [] ∨ ∃ e, ext = '.' :: e ∧ e ≠ [] ∧ '.' ∉ e) :
    decompose (compose ⟨ext, name, t?, some (k : Int)⟩) =
      .ok ⟨ext, name, t?, some (k : Int)⟩ := by
  have hnameNe : ∀ c ∈ name, c ≠ '_' := fun c hc he => hu (he ▸ hc)
  have hnameDot : ∀ c ∈ name, c ≠ '.' := fun c hc he => hdot (he ▸ hc)
  have hpseg : parseSeg name = none := by
    unfold parseSeg
    rw [h14, h8]
  cases t? with
  | some t =>
    have hvt : ValidDT t := ht t rfl
    have hsplit : splitOnChar '_'
        (name ++ '_' :: (fmt14 t ++ '_' :: ('l' :: natRepr k))) =
        [name, fmt14 t, 'l' :: natRepr k] := by
      rw [splitOnChar_append _ hnameNe,
        splitOnChar_append _ (fmt14_no_underscore t),
        splitOnChar_nosep (ltok_no_underscore k)]
    rcases hext with rfl | ⟨e, rfl, heNe, heDot⟩
    · have hcomp : compose ⟨[], name, some t, some (k : Int)⟩ =
          name ++ '_' :: (fmt14 t ++ '_' :: ('l' :: natRepr k)) := by
        simp [compose, intRepr_ofNat]
      have hstem : stemSuffix
          (name ++ '_' :: (fmt14 t ++ '_' :: ('l' :: natRepr k))) =
          (name ++ '_' :: (fmt14 t ++ '_' :: ('l' :: natRepr k)), []) := by
        apply stemSuffix_nodot
        intro c hc
        simp only [List.mem_append, List.mem_cons] at hc
        rcases hc with hc | rfl | hc | rfl | rfl | hc
        · exact hnameDot c hc
        · decide
        · exact fmt14_no_dot t c hc
        · decide
        · decide
        · exact isDig_ne_dot (natRepr_all_digit k c hc)
      rw [hcomp]
      unfold decompose
      rw [hstem]
      simp only
      rw [hsplit]
      simp only [if_neg hne]
      have hlast : ([name, fmt14 t, 'l' :: natRepr k]).getLast
          (List.cons_ne_nil _ _) = 'l' :: natRepr k := rfl
      simp [hlast, scanTime, hpseg, parseSeg_fmt14 hvt, isLayerTok_natRepr,
        natRepr_val]
    · have hcomp : compose ⟨'.' :: e, name, some t, some (k : Int)⟩ =
          (name ++ '_' :: (fmt14 t ++ '_' :: ('l' :: natRepr k))) ++
            '.' :: e := by
        simp [compose, intRepr_ofNat]
      have hstem : stemSuffix
          ((name ++ '_' :: (fmt14 t ++ '_' :: ('l' :: natRepr k))) ++
            '.' :: e) =
          (name ++ '_' :: (fmt14 t ++ '_' :: ('l' :: natRepr k)),
            '.' :: e) := by
        apply stemSuffix_ext _ heNe (fun c hc he => heDot (he ▸ hc))
        cases name with
        | nil => exact absurd rfl hne
        | cons a l => simp
      rw [hcomp]
      unfold decompose
      rw [hstem]
      simp only
      rw [hsplit]
      simp only [if_neg hne]
      have hlast : ([name, fmt14 t, 'l' :: natRepr k]).getLast
          (List.cons_ne_nil _ _) = 'l' :: natRepr k := rfl
      simp [hlast, scanTime, hpseg, parseSeg_fmt14 hvt, isLayerTok_natRepr,
        natRepr_val]
  | none =>
    have hlnod : isDig 'l' = false := rfl
    have hsplit : splitOnChar '_' (name ++ '_' :: ('l' :: natRepr k)) =
        [name, 'l' :: natRepr k] := by
      rw [splitOnChar_append _ hnameNe,
        splitOnChar_nosep (ltok_no_underscore k)]
    rcases hext with rfl | ⟨e, rfl, heNe, heDot⟩
    · have hcomp : compose ⟨[], name, none, some (k : Int)⟩ =
          name ++ '_' :: ('l' :: natRepr k) := by
        simp [compose, intRepr_ofNat]
      have hstem : stemSuffix (name ++ '_' :: ('l' :: natRepr k)) =
          (name ++ '_' :: ('l' :: natRepr k), []) := by
        apply stemSuffix_nodot
        intro c hc
        simp only [List.mem_append, List.mem_cons] at hc
        rcases hc with hc | rfl | rfl | hc
        · exact hnameDot c hc
        · decide
        · decide
        · exact isDig_ne_dot (natRepr_all_digit k c hc)
      rw [hcomp]
      unfold decompose
      rw [hstem]
      simp only
      rw [hsplit]
      simp only [if_neg hne]
      have hlast : ([name, 'l' :: natRepr k]).getLast
          (List.cons_ne_nil _ _) = 'l' :: natRepr k := rfl
      simp [hlast, scanTime, hpseg, parseSeg_not_digit hlnod,
        isLayerTok_natRepr, natRepr_val]
    · have hcomp : compose ⟨'.' :: e, name, none, some (k : Int)⟩ =
          (name ++ '_' :: ('l' :: natRepr k)) ++ '.' :: e := by
        simp [compose, intRepr_ofNat]
      have hstem : stemSuffix ((name ++ '_' :: ('l' :: natRepr k)) ++
            '.' :: e) =
          (name ++ '_' :: ('l' :: natRepr k), '.' :: e) := by
        apply stemSuffix_ext _ heNe (fun c hc he => heDot (he ▸ hc))
        cases name with
        | nil => exact absurd rfl hne
        | cons a l => simp
      rw [hcomp]
      unfold decompose
      rw [hstem]
      simp only
      rw [hsplit]
      simp only [if_neg hne]
      have hlast : ([name, 'l' :: natRepr k]).getLast
          (List.cons_ne_nil _ _) = 'l' :: natRepr k := rfl
      simp [hlast, scanTime, hpseg, parseSeg_not_digit hlnod,
        isLayerTok_natRepr, natRepr_val]

/-- Witness for `c1_roundtrip`: the concrete record
`head_20000102030405_l7.idf`, including a time component. -/
theorem c1_roundtrip_witness :
    decompose (compose ⟨('.' :: 'i' :: 'd' :: 'f' :: []),
        ('h' :: 'e' :: 'a' :: 'd' :: []),
        some ⟨2000, 1, 2, 3, 4, 5⟩, some ((7 : Nat) : Int)⟩) =
      .ok ⟨('.' :: 'i' :: 'd' :: 'f' :: []),
        ('h' :: 'e' :: 'a' :: 'd' :: []),
        some ⟨2000, 1, 2, 3, 4, 5⟩, some ((7 : Nat) : Int)⟩ :=
  c1_roundtrip _ _ 7 _ (by decide) (by decide) (by decide) (by decide)
    (by decide) (by decide) (fun t h => by cases h; decide)
    (Or.inr ⟨_, rfl, by decide, by decide⟩)

/-- C8, the claim as frozen, is false on the code: `decompose` scans all
underscore segments including the name itself, so for `20000101.idf` the
name segment is consumed as a timestamp even though there are no segments
after the name. -/
theorem c8_counterexample :
    decompose ('2' :: '0' :: '0' :: '0' :: '0' :: '1' :: '0' :: '1' ::
        '.' :: 'i' :: 'd' :: 'f' :: []) =
      .ok ⟨('.' :: 'i' :: 'd' :: 'f' :: []),
        ('2' :: '0' :: '0' :: '0' :: '0' :: '1' :: '0' :: '1' :: []),
        some ⟨2000, 1, 1, 0, 0, 0⟩, none⟩ ∧
    (splitOnChar '_' (stemSuffix ('2' :: '0' :: '0' :: '0' :: '0' :: '1' ::
        '0' :: '1' :: '.' :: 'i' :: 'd' :: 'f' :: [])).1).tail = [] := by
  constructor
  · rfl
  · rfl

/-- C8 amended: `decompose` takes the first underscore segment of the stem
as the name, fails when it is empty, and derives the time by scanning all
segments from the first one (the name included), taking the first segment
that parses with `%Y%m%d%H%M%S` and then `%Y%m%d`. -/
theorem c8_decompose_scan (fname : List Char) :
    (∀ d, decompose fname = .ok d →
      ∃ rest, splitOnChar '_' (stemSuffix fname).1 = d.name :: rest ∧
        d.name ≠ [] ∧ d.extension = (stemSuffix fname).2 ∧
        d.time = (d.name :: rest).findSome? parseSeg) ∧
    (∀ name rest, splitOnChar '_' (stemSuffix fname).1 = name :: rest →
      name = [] → decompose fname = .error .assertionError) := by
  constructor
  · intro d hd
    simp only [decompose] at hd
    cases hsp : splitOnChar '_' (stemSuffix fname).1 with
    | nil =>
      rw [hsp] at hd
      simp at hd
    | cons name rest =>
      rw [hsp] at hd
      by_cases hne : name = []
      · simp [hne] at hd
      · simp only [if_neg hne, Except.ok.injEq] at hd
        subst hd
        exact ⟨rest, rfl, hne, rfl, scanTime_eq_findSome _⟩
  · intro name rest hsp hne
    subst hne
    simp [decompose, hsp]

/-- Witness for `c8_decompose_scan` at the concrete file name
`khv_l2.idf`. -/
theorem c8_decompose_scan_witness :
    ∃ rest,
      splitOnChar '_' (stemSuffix ('k' :: 'h' :: 'v' :: '_' :: 'l' :: '2' ::
          '.' :: 'i' :: 'd' :: 'f' :: [])).1 =
        ('k' :: 'h' :: 'v' :: []) :: rest ∧
      ('k' :: 'h' :: 'v' :: []) ≠ [] ∧
      ('.' :: 'i' :: 'd' :: 'f' :: []) =
        (stemSuffix ('k' :: 'h' :: 'v' :: '_' :: 'l' :: '2' ::
          '.' :: 'i' :: 'd' :: 'f' :: [])).2 ∧
      (none : Option DT) =
        ((('k' :: 'h' :: 'v' :: []) :: rest).findSome? parseSeg) :=
  (c8_decompose_scan _).1
    ⟨('.' :: 'i' :: 'd' :: 'f' :: []), ('k' :: 'h' :: 'v' :: []), none,
      some ((2 : Nat) : Int)⟩ (by rfl)

/-! ## Lexicographic comparison of strings (Python semantics)

Python compares strings lexicographically by code point.  `strLtB` is that
comparison, written directly (Lean and Mathlib each carry their own string
order instances; a plain definition keeps the embedding unambiguous). -/

def strLtB : List Char → List Char → Bool
  | [], [] => false
  | [], _ :: _ => true
  | _ :: _, [] => false
  | c1 :: t1, c2 :: t2 =>
    if c1.toNat < c2.toNat then true
    else if c1 = c2 then strLtB t1 t2 else false

/-- Python string strict comparison `s1 < s2`. -/
def pyStrLt (s1 s2 : String) : Prop := strLtB s1.data s2.data = true

instance (s1 s2 : String) : Decidable (pyStrLt s1 s2) :=
  inferInstanceAs (Decidable (strLtB s1.data s2.data = true))

theorem strLtB_append (p xs ys : List Char) :
    strLtB (p ++ xs) (p ++ ys) = strLtB xs ys := by
  induction p with
  | nil => rfl
  | cons c cs ih => simp [strLtB, Nat.lt_irrefl, ih]

theorem digitChar_toNat_lt {d1 d2 : Nat} (h : d1 < d2) (h2 : d2 < 10) :
    (Nat.digitChar d1).toNat < (Nat.digitChar d2).toNat := by
  have h1 : d1 < 10 := lt_trans h h2
  interval_cases d1 <;> interval_cases d2 <;> decide

theorem pad_mod (k v : Nat) : pad k (v % 10 ^ k) = pad k v := by
  induction k generalizing v with
  | zero => rfl
  | succ n ih =>
    have hdig : v % 10 ^ (n + 1) / 10 ^ n % 10 = v / 10 ^ n % 10 := by
      rw [pow_succ, Nat.mod_mul_right_div_self]
      exact Nat.mod_mod_of_dvd _ (by norm_num)
    have htail : pad n (v % 10 ^ (n + 1)) = pad n v := by
      rw [← ih (v % 10 ^ (n + 1))]
      rw [Nat.mod_mod_of_dvd _ (pow_dvd_pow 10 (Nat.le_succ n))]
      exact ih v
    simp only [pad, hdig, htail]

theorem pad_ltB {k v1 v2 : Nat} (S1 S2 : List Char)
    (h : v1 < v2) (hb : v2 < 10 ^ k) :
    strLtB (pad k v1 ++ S1) (pad k v2 ++ S2) = true := by
  induction k generalizing v1 v2 S1 S2 with
  | zero => omega
  | succ n ih =>
    have hd1lt : v1 / 10 ^ n < 10 := by
      have : v1 < 10 ^ (n + 1) := lt_trans h hb
      rw [pow_succ] at this
      exact Nat.div_lt_of_lt_mul this
    have hd2lt : v2 / 10 ^ n < 10 := by
      rw [pow_succ] at hb
      exact Nat.div_lt_of_lt_mul hb
    have e1 : v1 / 10 ^ n % 10 = v1 / 10 ^ n := Nat.mod_eq_of_lt hd1lt
    have e2 : v2 / 10 ^ n % 10 = v2 / 10 ^ n := Nat.mod_eq_of_lt hd2lt
    simp only [pad, List.cons_append, e1, e2]
    rcases lt_trichotomy (v1 / 10 ^ n) (v2 / 10 ^ n) with hlt | heq | hgt
    · simp [strLtB, digitChar_toNat_lt hlt hd2lt]
    · rw [heq]
      have m1 := Nat.div_add_mod v1 (10 ^ n)
      have m2 := Nat.div_add_mod v2 (10 ^ n)
      rw [heq] at m1
      have hmlt : v1 % 10 ^ n < v2 % 10 ^ n := by omega
      have hmb : v2 % 10 ^ n < 10 ^ n :=
        Nat.mod_lt _ (Nat.pos_pow_of_pos n (by norm_num))
      have hrec := ih S1 S2 hmlt hmb
      rw [pad_mod, pad_mod] at hrec
      simp [strLtB, Nat.lt_irrefl, hrec]
    · have hdd : v1 / 10 ^ n ≤ v2 / 10 ^ n :=
        Nat.div_le_div_right (Nat.le_of_lt h)
      omega

/-- Strict monotonicity of the `%Y%m%d%H%M%S` rendering with respect to the
datetime order, under Python string comparison. -/
theorem fmt14_strLtB {a b : DT} (ha : ValidDT a) (hb : ValidDT b)
    (h : dtLt a b) : strLtB (fmt14 a) (fmt14 b) = true := by
  obtain ⟨ya, moa, da, ha1, mia, sa⟩ := a
  obtain ⟨yb, mob, db, hb1, mib, sb⟩ := b
  obtain ⟨a1, a2, a3, a4, a5, a6, a7, a8, a9⟩ := ha
  obtain ⟨b1, b2, b3, b4, b5, b6, b7, b8, b9⟩ := hb
  simp only at a1 a2 a3 a4 a5 a6 a7 a8 a9 b1 b2 b3 b4 b5 b6 b7 b8 b9
  have hda : da ≤ 31 := le_trans a6 (daysInMonth_le _ _)
  have hdb : db ≤ 31 := le_trans b6 (daysInMonth_le _ _)
  unfold dtLt at h
  simp only at h
  have shape : ∀ t : DT, fmt14 t =
      pad 4 t.year ++ (pad 2 t.month ++ (pad 2 t.day ++ (pad 2 t.hour ++
        (pad 2 t.minute ++ pad 2 t.second)))) := by
    intro t
    simp [fmt14, List.append_assoc]
  rw [shape, shape]
  simp only
  rcases h with h | ⟨rfl, h⟩
  · exact pad_ltB _ _ h (by omega)
  · rw [strLtB_append]
    rcases h with h | ⟨rfl, h⟩
    · exact pad_ltB _ _ h (by omega)
    · rw [strLtB_append]
      rcases h with h | ⟨rfl, h⟩
      · exact pad_ltB _ _ h (by omega)
      · rw [strLtB_append]
        rcases h with h | ⟨rfl, h⟩
        · exact pad_ltB _ _ h (by omega)
        · rw [strLtB_append]
          rcases h with h | ⟨rfl, h⟩
          · exact pad_ltB _ _ h (by omega)
          · rw [strLtB_append]
            have hp : pad 2 sa ++ [] = pad 2 sa := List.append_nil _
            have hq : pad 2 sb ++ [] = pad 2 sb := List.append_nil _
            rw [← hp, ← hq]
            exact pad_ltB _ _ h (by omega)

/-- Strict monotonicity of the period label as Python strings. -/
theorem fmt14_strLt {a b : DT} (ha : ValidDT a) (hb : ValidDT b)
    (h : dtLt a b) : pyStrLt (String.mk (fmt14 a)) (String.mk (fmt14 b)) :=
  fmt14_strLtB ha hb h

/-! ## src/imod/run.py : `_time_discretisation`

`_maybe_to_datetime` only converts the representation (pandas / cftime); on
the datetime values modelled here it is the identity.  A `timedelta` between
two datetimes normalises to `(days, seconds)` with floor division by 86400
and a nonnegative remainder; the duration written to the runfile is
`days + seconds / 86400.0`, which is exact for these magnitudes and is
modelled as the rational it denotes. -/

def timeDiscretisation (times : List DT) : List (String × ℚ) :=
  (times.zip times.tail).map fun p =>
    (String.mk (fmt14 p.1),
      ((((toSec p.2 : Int) - (toSec p.1 : Int)).ediv 86400 : Int) : ℚ) +
        ((((toSec p.2 : Int) - (toSec p.1 : Int)).emod 86400 : Int) : ℚ) /
          86400)

theorem zip_tail_getElem? (l : List DT) (i : Nat) :
    (l.zip l.tail)[i]? =
      match l[i]?, l[i + 1]? with
      | some a, some b => some (a, b)
      | _, _ => none := by
  induction l generalizing i with
  | nil => cases i <;> rfl
  | cons x xs ih =>
    cases xs with
    | nil => cases i <;> rfl
    | cons y ys =>
      cases i with
      | zero => simp
      | succ j =>
        simp only [List.tail_cons]
        have := ih j
        simp only [List.tail_cons] at this
        simpa using this

theorem chain'_zip_tail {R : DT → DT → Prop} {l : List DT} (h : l.Chain' R) :
    ∀ p ∈ l.zip l.tail, R p.1 p.2 := by
  induction l with
  | nil => simp
  | cons x xs ih =>
    cases xs with
    | nil => simp
    | cons y ys =>
      intro p hp
      rw [List.chain'_cons] at h
      rcases List.mem_cons.mp hp with rfl | hp
      · exact h.1
      · exact ih h.2 p hp

theorem chain'_zip_tail_keys {l : List DT} (h : l.Chain' dtLt)
    (hv : ∀ t ∈ l, ValidDT t) :
    (l.zip l.tail).Chain'
      (fun p q => pyStrLt (String.mk (fmt14 p.1)) (String.mk (fmt14 q.1))) := by
  induction l with
  | nil => simp
  | cons x xs ih =>
    cases xs with
    | nil => simp
    | cons y ys =>
      rw [List.chain'_cons] at h
      have hx : ValidDT x := hv x (by simp)
      have hy : ValidDT y := hv y (by simp)
      have htail := ih h.2 (fun t ht => hv t (List.mem_cons_of_mem _ ht))
      simp only [List.tail_cons] at htail ⊢
      cases ys with
      | nil => simp
      | cons z zs =>
        simp only [List.zip_cons_cons, List.tail_cons] at htail ⊢
        rw [List.chain'_cons]
        exact ⟨fmt14_strLt hx hy h.1, htail⟩

theorem durQ_eq (s e : DT) :
    ((((toSec e : Int) - (toSec s : Int)).ediv 86400 : Int) : ℚ) +
      ((((toSec e : Int) - (toSec s : Int)).emod 86400 : Int) : ℚ) / 86400 =
      ((toSec e : ℚ) - (toSec s : ℚ)) / 86400 := by
  have hid := Int.ediv_add_emod ((toSec e : Int) - (toSec s : Int)) 86400
  have hq : ((86400 * (((toSec e : Int) - (toSec s : Int)).ediv 86400) +
      ((toSec e : Int) - (toSec s : Int)).emod 86400 : Int) : ℚ) =
      (((toSec e : Int) - (toSec s : Int) : Int) : ℚ) := by
    exact_mod_cast congrArg (fun z : Int => (z : ℚ)) hid
  push_cast at hq ⊢
  field_simp
  linarith

/-- C3: for `n` sorted unique valid times, the discretisation has exactly
`n - 1` entries; the keys are the `%Y%m%d%H%M%S` renderings of the period
starts and strictly increase as strings; each duration is the exact
difference `end - start` in fractional days (integer days plus
seconds / 86400); and every duration is strictly positive. -/
theorem c3_time_discretisation (times : List DT)
    (hn : 2 ≤ times.length)
    (hv : ∀ t ∈ times, ValidDT t)
    (hs : times.Chain' dtLt) :
    (timeDiscretisation times).length = times.length - 1 ∧
    ((timeDiscretisation times).map Prod.fst).Chain' pyStrLt ∧
    (∀ i s e, times[i]? = some s → times[i + 1]? = some e →
      (timeDiscretisation times)[i]? =
        some (String.mk (fmt14 s), ((toSec e : ℚ) - (toSec s : ℚ)) / 86400)) ∧
    (∀ p ∈ timeDiscretisation times, 0 < p.2) := by
  refine ⟨?_, ?_, ?_, ?_⟩
  · simp only [timeDiscretisation, List.length_map, List.length_zip,
      List.length_tail]
    omega
  · rw [timeDiscretisation, List.map_map, List.chain'_map]
    exact chain'_zip_tail_keys hs hv
  · intro i s e hsome hesome
    rw [timeDiscretisation, List.getElem?_map, zip_tail_getElem?, hsome,
      hesome]
    simp [durQ_eq]
  · intro p hp
    rw [timeDiscretisation] at hp
    rcases List.mem_map.mp hp with ⟨q, hq, rfl⟩
    have hrel : dtLt q.1 q.2 := chain'_zip_tail hs q hq
    have hmem := List.mem_zip hq
    have hv1 : ValidDT q.1 := hv _ hmem.1
    have hv2 : ValidDT q.2 := hv _ (List.mem_of_mem_tail hmem.2)
    have hlt : toSec q.1 < toSec q.2 := toSec_lt_of_dtLt hv1 hv2 hrel
    simp only [durQ_eq]
    apply div_pos _ (by norm_num)
    have : (toSec q.1 : ℚ) < (toSec q.2 : ℚ) := by exact_mod_cast hlt
    linarith

/-- Witness for `c3_time_discretisation` at the three concrete times
2000-01-01, 2000-01-02 and 2000-01-03 12:00. -/
theorem c3_time_discretisation_witness :
    (timeDiscretisation [⟨2000, 1, 1, 0, 0, 0⟩, ⟨2000, 1, 2, 0, 0, 0⟩,
        ⟨2000, 1, 3, 12, 0, 0⟩]).length =
      ([⟨2000, 1, 1, 0, 0, 0⟩, ⟨2000, 1, 2, 0, 0, 0⟩,
        ⟨2000, 1, 3, 12, 0, 0⟩] : List DT).length - 1 ∧
    ((timeDiscretisation [⟨2000, 1, 1, 0, 0, 0⟩, ⟨2000, 1, 2, 0, 0, 0⟩,
        ⟨2000, 1, 3, 12, 0, 0⟩]).map Prod.fst).Chain' pyStrLt ∧
    (∀ i s e,
      ([⟨2000, 1, 1, 0, 0, 0⟩, ⟨2000, 1, 2, 0, 0, 0⟩,
        ⟨2000, 1, 3, 12, 0, 0⟩] : List DT)[i]? = some s →
      ([⟨2000, 1, 1, 0, 0, 0⟩, ⟨2000, 1, 2, 0, 0, 0⟩,
        ⟨2000, 1, 3, 12, 0, 0⟩] : List DT)[i + 1]? = some e →
      (timeDiscretisation [⟨2000, 1, 1, 0, 0, 0⟩, ⟨2000, 1, 2, 0, 0, 0⟩,
        ⟨2000, 1, 3, 12, 0, 0⟩])[i]? =
        some (String.mk (fmt14 s), ((toSec e : ℚ) - (toSec s : ℚ)) / 86400)) ∧
    (∀ p ∈ timeDiscretisation [⟨2000, 1, 1, 0, 0, 0⟩, ⟨2000, 1, 2, 0, 0, 0⟩,
        ⟨2000, 1, 3, 12, 0, 0⟩], 0 < p.2) :=
  c3_time_discretisation _ (by decide) (by decide)
    (List.Chain.cons (by decide) (List.Chain.cons (by decide) List.Chain.nil))

/-! ## src/imod/run.py : data model

A model is an insertion-ordered dictionary from compound string keys to
either a labelled array (`xarray.DataArray`, with `layer` and optional
`time` coordinates and `x`/`y` midpoint coordinates) or a tidy point table
(`pandas.DataFrame`, as used by the `wel` package).  Only the coordinates
and columns the composition engine reads are modelled. -/

/-- Python datetime `<=`, field-lexicographic like `<`. -/
abbrev dtLe (a b : DT) : Prop := a = b ∨ dtLt a b

/-- A path produced by `directory.joinpath(compose(d))`. -/
structure IPath where
  dir : String
  fname : List Char
deriving DecidableEq, Repr

/-- The coordinates of a labelled array entry. -/
structure ArrEntry where
  layers : List Int
  times : Option (List DT)
  xs : List ℚ
  ys : List ℚ
deriving DecidableEq, Repr

/-- The columns of a tidy point-data table entry. -/
structure TabEntry where
  layers : List Int
  times : Option (List DT)
  xs : List ℚ
  ys : List ℚ
deriving DecidableEq, Repr

inductive Entry where
  | arr (a : ArrEntry)
  | tab (t : TabEntry)
deriving DecidableEq, Repr

/-- One row of the stress-period schema registry. -/
structure SchemaEntry where
  systems : Bool
  order : Option (List String)
deriving DecidableEq, Repr

/-- Ordered-dictionary lookup. -/
def alookup {α : Type _} : List (String × α) → String → Option α
  | [], _ => none
  | (k, v) :: rest, key => if k = key then some v else alookup rest key

def splitDash (s : String) : List String :=
  (splitOnChar '-' s.data).map String.mk

/-- `key.split("-")[0]`. -/
def baseName (s : String) : String :=
  match splitDash s with
  | [] => ""
  | b :: _ => b

/-- The static-package schema registry (`package_schema`). -/
def package_schema : List (String × Option (List String)) :=
  [("bnd", none), ("shd", none), ("kdw", none), ("vcw", none),
   ("khv", none), ("kva", none), ("kvv", none), ("sto", none),
   ("ssc", none), ("top", none), ("bot", none), ("pwt", none),
   ("ani", some ["angle", "factor"]),
   ("hfb", some ["factor", "resistance"])]

/-- The stress-period schema registry (`stress_period_schema`). -/
def stress_period_schema : List (String × SchemaEntry) :=
  [("wel", ⟨true, none⟩),
   ("drn", ⟨true, some ["cond", "bot"]⟩),
   ("riv", ⟨true, some ["cond", "stage", "bot", "inff"]⟩),
   ("ghb", ⟨true, some ["cond", "head"]⟩),
   ("rch", ⟨false, none⟩),
   ("chd", ⟨false, none⟩)]

/-- Exception-propagating map: the translation of a Python loop whose body
may raise, collecting results in order. -/
def mapE {α β : Type _} (f : α → Except PErr β) : List α → Except PErr (List β)
  | [] => .ok []
  | x :: xs =>
    match f x with
    | .error e => .error e
    | .ok y =>
      match mapE f xs with
      | .error e => .error e
      | .ok ys => .ok (y :: ys)

theorem mapE_ok_of_all {α β : Type _} {f : α → Except PErr β} {g : α → β} :
    ∀ {l : List α}, (∀ a ∈ l, f a = .ok (g a)) → mapE f l = .ok (l.map g) := by
  intro l
  induction l with
  | nil => intro _; rfl
  | cons x xs ih =>
    intro h
    simp only [mapE, h x (List.mem_cons_self _ _),
      ih (fun a ha => h a (List.mem_cons_of_mem _ ha)), List.map_cons]

theorem mapE_error_of_exists {α β : Type _} {f : α → Except PErr β} {e : PErr}
    (hall : ∀ a, f a = .error e ∨ ∃ b, f a = .ok b) :
    ∀ {l : List α}, (∃ a ∈ l, f a = .error e) → mapE f l = .error e := by
  intro l
  induction l with
  | nil => simp
  | cons x xs ih =>
    rintro ⟨a, ha, hfa⟩
    rcases hall x with hx | ⟨b, hb⟩
    · simp only [mapE, hx]
    · simp only [mapE, hb]
      rcases List.mem_cons.mp ha with rfl | ha2
      · rw [hfa] at hb
        cases hb
      · rw [ih ⟨a, ha2, hfa⟩]

theorem mapE_ok_mem {α β : Type _} {f : α → Except PErr β} :
    ∀ {l : List α} {r : List β}, mapE f l = .ok r →
      ∀ b ∈ r, ∃ a ∈ l, f a = .ok b := by
  intro l
  induction l with
  | nil =>
    intro r h b hb
    simp only [mapE, Except.ok.injEq] at h
    subst h
    simp at hb
  | cons x xs ih =>
    intro r h b hb
    cases hfx : f x with
    | error e =>
      simp only [mapE, hfx] at h
      exact Except.noConfusion h
    | ok y =>
      cases hxs : mapE f xs with
      | error e =>
        simp only [mapE, hfx, hxs] at h
        exact Except.noConfusion h
      | ok ys =>
        simp only [mapE, hfx, hxs, Except.ok.injEq] at h
        subst h
        rcases List.mem_cons.mp hb with rfl | hb2
        · exact ⟨x, List.mem_cons_self _ _, hfx⟩
        · obtain ⟨a, ha, hfa⟩ := ih hxs b hb2
          exact ⟨a, List.mem_cons_of_mem _ ha, hfa⟩

theorem mapE_ok_map_eq {α β γ : Type _} {f : α → Except PErr β} {g : β → γ}
    {h : α → γ} (hc : ∀ a b, f a = .ok b → g b = h a) :
    ∀ {l : List α} {r : List β}, mapE f l = .ok r → r.map g = l.map h := by
  intro l
  induction l with
  | nil =>
    intro r hr
    simp only [mapE, Except.ok.injEq] at hr
    subst hr
    rfl
  | cons x xs ih =>
    intro r hr
    cases hfx : f x with
    | error e =>
      simp only [mapE, hfx] at hr
      exact Except.noConfusion hr
    | ok y =>
      cases hxs : mapE f xs with
      | error e =>
        simp only [mapE, hfx, hxs] at hr
        exact Except.noConfusion hr
      | ok ys =>
        simp only [mapE, hfx, hxs, Except.ok.injEq] at hr
        subst hr
        simp only [List.map_cons, hc x y hfx, ih hxs]

/-- `_get_system`: paths for a single system of a stress-period package.
The nesting is layer to time; a package-local time axis is forward filled
against the global times, `list(filter(lambda t: t <= globaltime,
package_times))[-1]` raising `IndexError` when the filter is empty.  When
`times` is falsy the code substitutes `[0]`; comparing a datetime with `0`
raises `TypeError`, and without a time coordinate the sentinel is only
counted. -/
def getSystem (directory : String) (key : String) (layers : List Int)
    (ptimes : Option (List DT)) (gt : List DT) :
    Except PErr (List (Int × List IPath)) :=
  match ptimes with
  | none =>
    let n := if gt.isEmpty then 1 else gt.length
    .ok (layers.map fun l =>
      (l, List.replicate n
        ⟨directory, compose ⟨".idf".data, key.data, none, some l⟩⟩))
  | some pt =>
    if gt.isEmpty then
      if layers.isEmpty then .ok [] else .error .typeError
    else
      mapE (fun l =>
        match mapE (fun g =>
            match (pt.filter fun t => decide (dtLe t g)).getLast? with
            | some tm =>
              .ok (⟨directory,
                compose ⟨".idf".data, key.data, some tm, some l⟩⟩ : IPath)
            | none => .error .indexError) gt with
        | .error e => .error e
        | .ok paths => .ok (l, paths)) layers

/-- The forward-fill selection of `_get_system`. -/
def ffill (pt : List DT) (g : DT) : Option DT :=
  (pt.filter fun t => decide (dtLe t g)).getLast?

def mkIdf (directory key : String) (t? : Option DT) (l : Int) : IPath :=
  ⟨directory, compose ⟨".idf".data, key.data, t?, some l⟩⟩

theorem dtLt_trans {a b c : DT} (h1 : dtLt a b) (h2 : dtLt b c) :
    dtLt a c := by
  obtain ⟨y1, mo1, d1, h1f, mi1, s1⟩ := a
  obtain ⟨y2, mo2, d2, h2f, mi2, s2⟩ := b
  obtain ⟨y3, mo3, d3, h3f, mi3, s3⟩ := c
  simp only [dtLt] at *
  omega

theorem dtLe_trans {a b c : DT} (h1 : dtLe a b) (h2 : dtLe b c) :
    dtLe a c := by
  rcases h1 with rfl | h1
  · exact h2
  · rcases h2 with rfl | h2
    · exact Or.inr h1
    · exact Or.inr (dtLt_trans h1 h2)

theorem chain'_filter_dt {p : DT → Bool} {l : List DT}
    (hs : l.Chain' dtLt) : (l.filter p).Chain' dtLt := by
  induction l with
  | nil => simp
  | cons x xs ih =>
    rw [List.chain'_cons'] at hs
    have htail := ih hs.2
    by_cases hx : p x
    · rw [List.filter_cons_of_pos hx, List.chain'_cons']
      refine ⟨?_, htail⟩
      intro y hy
      have hymem : y ∈ xs.filter p := by
        rcases hxs : xs.filter p with _ | ⟨z, zs⟩
        · rw [hxs] at hy
          simp at hy
        · rw [hxs] at hy
          simp at hy
          subst hy
          simp [hxs]
      have hyxs : y ∈ xs := List.mem_of_mem_filter hymem
      -- x is below every member of xs in a sorted list
      clear hy hymem ih htail
      induction xs with
      | nil => simp at hyxs
      | cons z zs ihz =>
        rw [List.chain'_cons'] at hs
        rcases List.mem_cons.mp hyxs with rfl | hyzs
        · exact hs.1 y (by simp)
        · exact ihz ⟨fun w hw => dtLt_trans (hs.1 z (by simp))
            (hs.2.1 w hw), hs.2.2⟩ hyzs
    · rw [List.filter_cons_of_neg hx]
      exact htail

theorem chain'_getLast?_max {l : List DT} (hs : l.Chain' dtLt) {tm : DT}
    (h : l.getLast? = some tm) : ∀ t ∈ l, dtLe t tm := by
  induction l with
  | nil => simp
  | cons x xs ih =>
    cases xs with
    | nil =>
      simp only [List.getLast?_singleton, Option.some.injEq] at h
      subst h
      intro t ht
      simp at ht
      subst ht
      exact Or.inl rfl
    | cons y ys =>
      rw [List.chain'_cons] at hs
      have hlast : (y :: ys).getLast? = some tm := by
        rw [List.getLast?_cons_cons] at h
        exact h
      intro t ht
      rcases List.mem_cons.mp ht with rfl | ht
      · have hy : dtLe y tm :=
          ih hs.2 hlast y (by simp)
        exact dtLe_trans (Or.inr hs.1) hy
      · exact ih hs.2 hlast t ht

theorem ffill_spec {pt : List DT} (hs : pt.Chain' dtLt) (g : DT) {tm : DT}
    (h : ffill pt g = some tm) :
    tm ∈ pt ∧ dtLe tm g ∧ ∀ t ∈ pt, dtLe t g → dtLe t tm := by
  unfold ffill at h
  have hmem : tm ∈ pt.filter fun t => decide (dtLe t g) := by
    have hx : tm ∈ (pt.filter fun t => decide (dtLe t g)).getLast? :=
      Option.mem_def.mpr h
    obtain ⟨hne2, heq⟩ := List.mem_getLast?_eq_getLast hx
    rw [heq]
    exact List.getLast_mem hne2
  refine ⟨List.mem_of_mem_filter hmem, ?_, ?_⟩
  · have := List.of_mem_filter hmem
    simpa using this
  · intro t ht hle
    have htf : t ∈ pt.filter fun t => decide (dtLe t g) := by
      rw [List.mem_filter]
      exact ⟨ht, by simpa using hle⟩
    exact chain'_getLast?_max (chain'_filter_dt hs) h t htf

/-- C2: for a stress-period array package with a (sorted) time coordinate,
expansion over the global times emits, per layer and per global instant `g`,
the path timestamped with the forward-filled package time; that time is the
latest package time at-or-before `g`; and when some global instant has no
package time at-or-before it (in particular when the earliest package time
is strictly after the first global time), expansion fails with an error
instead of silently defaulting. -/
theorem c2_forward_fill (directory key : String) (layers : List Int)
    (pt gt : List DT) (hpt : pt.Chain' dtLt)
    (hl : layers ≠ []) (hg : gt ≠ []) :
    ((∃ g ∈ gt, ∀ t ∈ pt, ¬ dtLe t g) →
      getSystem directory key layers (some pt) gt = .error .indexError) ∧
    ((∀ g ∈ gt, ∃ t ∈ pt, dtLe t g) →
      getSystem directory key layers (some pt) gt =
        .ok (layers.map fun l =>
          (l, gt.map fun g => mkIdf directory key (ffill pt g) l)) ∧
      ∀ g ∈ gt, ∃ tm, ffill pt g = some tm ∧ tm ∈ pt ∧ dtLe tm g ∧
        ∀ t ∈ pt, dtLe t g → dtLe t tm) :=
  by
  have hgi : ¬ (gt.isEmpty = true) := fun hcond => hg (List.isEmpty_iff.mp hcond)
  constructor
  · rintro ⟨g0, hg0, hnone⟩
    have hfilter : pt.filter (fun t => decide (dtLe t g0)) = [] := by
      rw [List.filter_eq_nil]
      intro t ht
      simpa using hnone t ht
    have hinner : ∀ l : Int,
        (mapE (fun g =>
          match (pt.filter fun t => decide (dtLe t g)).getLast? with
          | some tm =>
            Except.ok (⟨directory,
              compose ⟨".idf".data, key.data, some tm, some l⟩⟩ : IPath)
          | none => Except.error PErr.indexError) gt) = .error .indexError := by
      intro l
      apply mapE_error_of_exists
      · intro g
        cases hc : (pt.filter fun t => decide (dtLe t g)).getLast? with
        | none => exact Or.inl rfl
        | some tm => exact Or.inr ⟨_, rfl⟩
      · refine ⟨g0, hg0, ?_⟩
        rw [hfilter]
        rfl
    simp only [getSystem, if_neg hgi]
    rcases layers with _ | ⟨l0, ls⟩
    · exact absurd rfl hl
    · simp only [mapE, hinner l0]
  · intro hprior
    have hsome : ∀ g ∈ gt, ∃ tm, ffill pt g = some tm := by
      intro g hgmem
      cases hc : ffill pt g with
      | some tm => exact ⟨tm, rfl⟩
      | none =>
        unfold ffill at hc
        rw [List.getLast?_eq_none_iff, List.filter_eq_nil] at hc
        obtain ⟨t, ht, hle⟩ := hprior g hgmem
        exact absurd hle (by simpa using hc t ht)
    constructor
    · simp only [getSystem, if_neg hgi]
      apply mapE_ok_of_all
      intro l _
      have hin : (mapE (fun g =>
          match (pt.filter fun t => decide (dtLe t g)).getLast? with
          | some tm =>
            Except.ok (⟨directory,
              compose ⟨".idf".data, key.data, some tm, some l⟩⟩ : IPath)
          | none => Except.error PErr.indexError) gt) =
          .ok (gt.map fun g => mkIdf directory key (ffill pt g) l) := by
        apply mapE_ok_of_all
        intro g hgmem
        obtain ⟨tm, htm⟩ := hsome g hgmem
        unfold ffill at htm
        rw [htm]
        unfold mkIdf ffill
        rw [htm]
      rw [hin]
    · intro g hgmem
      obtain ⟨tm, htm⟩ := hsome g hgmem
      obtain ⟨h1, h2, h3⟩ := ffill_spec hpt g htm
      exact ⟨tm, htm, h1, h2, h3⟩

/-- Witness for `c2_forward_fill`: a package defined only at 2000-01-01,
expanded over global times 2000-01-01/02/03, carries the 01-01 stamp at
every instant; a package first defined at 2000-01-02 with first global time
2000-01-01 fails. -/
theorem c2_forward_fill_witness :
    (getSystem "d" "riv" [1] (some [⟨2000, 1, 1, 0, 0, 0⟩])
        [⟨2000, 1, 1, 0, 0, 0⟩, ⟨2000, 1, 2, 0, 0, 0⟩, ⟨2000, 1, 3, 0, 0, 0⟩] =
      .ok ([1].map fun l =>
        (l, [⟨2000, 1, 1, 0, 0, 0⟩, ⟨2000, 1, 2, 0, 0, 0⟩,
            ⟨2000, 1, 3, 0, 0, 0⟩].map fun g =>
          mkIdf "d" "riv" (ffill [⟨2000, 1, 1, 0, 0, 0⟩] g) l))) ∧
    getSystem "d" "riv" [1] (some [⟨2000, 1, 2, 0, 0, 0⟩])
        [⟨2000, 1, 1, 0, 0, 0⟩, ⟨2000, 1, 2, 0, 0, 0⟩] =
      .error .indexError :=
  ⟨((c2_forward_fill "d" "riv" [1] [⟨2000, 1, 1, 0, 0, 0⟩]
      [⟨2000, 1, 1, 0, 0, 0⟩, ⟨2000, 1, 2, 0, 0, 0⟩, ⟨2000, 1, 3, 0, 0, 0⟩]
      List.Chain.nil (by decide) (by decide)).2 (by decide)).1,
   (c2_forward_fill "d" "riv" [1] [⟨2000, 1, 2, 0, 0, 0⟩]
      [⟨2000, 1, 1, 0, 0, 0⟩, ⟨2000, 1, 2, 0, 0, 0⟩]
      List.Chain.nil (by decide) (by decide)).1 (by decide)⟩

/-! ## src/imod/run.py : `_get_wel` and the layer slice of `_data_bounds`;
src/imod/wq/pkggroup.py : `PackageGroup.reorder_keys` -/

/-- `np.unique` on an integer column: sorted, deduplicated. -/
def insertSortedInt (x : Int) : List Int → List Int
  | [] => [x]
  | y :: ys =>
    if x < y then x :: y :: ys
    else if x = y then y :: ys
    else y :: insertSortedInt x ys

def sortedDedupInt (l : List Int) : List Int := l.foldr insertSortedInt []

/-- `_get_wel`: paths for a single system of a tabular (wel) package.  The
entry time column is never read; one identical untimestamped `.ipf` path is
appended per global time instant (`for _ in times`), with `times = [0]`
when `times` is falsy. -/
def getWel (directory : String) (key : String) (df : TabEntry)
    (gt : List DT) : List (Int × List IPath) :=
  let n := if gt.isEmpty then 1 else gt.length
  (sortedDedupInt df.layers).map fun l =>
    (l, List.replicate n
      ⟨directory, compose ⟨".ipf".data, key.data, none, some l⟩⟩)

/-- The per-entry layer validation loop of `_data_bounds`: the value `-1`
is passed over whenever the model is not a seawat model (the code reads no
recharge/top flag of any kind); any other value not among the bnd layers
raises `ValueError`. -/
def checkLayers (seawat : Bool) (layers : List Int) (key : String) :
    List Int → Except PErr Unit
  | [] => .ok ()
  | l :: rest =>
    if l = -1 ∧ seawat = false then checkLayers seawat layers key rest
    else if l ∈ layers then checkLayers seawat layers key rest
    else .error .valueError

/-- The bnd layer list `1..nlay` (asserted consecutive by
`_data_bounds`). -/
def bndLayers (nlay : Nat) : List Int :=
  (List.range nlay).map fun i => ((i + 1 : Nat) : Int)

/-- The accumulating loop of `PackageGroup.reorder_keys`: a key whose
system carries a `concentration` variable is inserted at the front
(`order.insert(0, k)`) and counted, other keys are appended. -/
def reorderAux : List (String × Bool) → Nat → List String → Nat × List String
  | [], n, ord => (n, ord)
  | (key, true) :: rest, n, ord => reorderAux rest (n + 1) (key :: ord)
  | (key, false) :: rest, n, ord => reorderAux rest n (ord ++ [key])

/-- `PackageGroup.reorder_keys`: run the loop; raise `ValueError` when more
than one system carries concentrations; `first_key = order[0]` (an
`IndexError` on an empty group) and `key_order = order`. -/
def reorder_keys (items : List (String × Bool)) :
    Except PErr (String × List String) :=
  if (reorderAux items 0 []).1 > 1 then .error .valueError
  else
    match (reorderAux items 0 []).2 with
    | [] => .error .indexError
    | k :: rest => .ok (k, k :: rest)

theorem reorderAux_count :
    ∀ (l : List (String × Bool)) (n : Nat) (ord : List String),
      (reorderAux l n ord).1 = n + (l.filter Prod.snd).length := by
  intro l
  induction l with
  | nil => intro n ord; simp [reorderAux]
  | cons x xs ih =>
    intro n ord
    obtain ⟨xk, xv⟩ := x
    cases xv <;> simp [reorderAux, List.filter_cons, ih] <;> omega

theorem reorderAux_append_keys :
    ∀ (l : List (String × Bool)) (n : Nat) (ord : List String),
      l.filter Prod.snd = [] →
      (reorderAux l n ord).2 = ord ++ l.map Prod.fst := by
  intro l
  induction l with
  | nil => intro n ord _; simp [reorderAux]
  | cons x xs ih =>
    intro n ord hf
    obtain ⟨xk, xv⟩ := x
    cases xv
    · rw [List.filter_cons_of_neg (by simp)] at hf
      simp [reorderAux, ih _ _ hf]
    · rw [List.filter_cons_of_pos (by simp)] at hf
      cases hf

theorem reorderAux_append :
    ∀ (a b : List (String × Bool)) (n : Nat) (ord : List String),
      reorderAux (a ++ b) n ord =
        reorderAux b (reorderAux a n ord).1 (reorderAux a n ord).2 := by
  intro a
  induction a with
  | nil => intro b n ord; rfl
  | cons x xs ih =>
    intro b n ord
    obtain ⟨xk, xv⟩ := x
    cases xv <;> simp [reorderAux, ih]

/-- C6: in `reorder_keys`, when exactly one system carries a concentration
variable its key ends up first (`key_order[0] = first_key = that key`);
with more than one such system construction fails with `ValueError`. -/
theorem c6_reorder_keys (items : List (String × Bool)) (k : String) :
    (items.filter Prod.snd = [(k, true)] →
      ∃ rest, reorder_keys items = .ok (k, k :: rest)) ∧
    (1 < (items.filter Prod.snd).length →
      reorder_keys items = .error .valueError) := by
  constructor
  · intro hone
    have hsplit : ∃ pre post, items = pre ++ (k, true) :: post ∧
        pre.filter Prod.snd = [] ∧ post.filter Prod.snd = [] := by
      induction items with
      | nil => cases hone
      | cons x xs ih =>
        obtain ⟨xk, xv⟩ := x
        cases xv
        · rw [List.filter_cons_of_neg (by simp)] at hone
          obtain ⟨pre, post, heq, hpre, hpost⟩ := ih hone
          exact ⟨(xk, false) :: pre, post, by simp [heq], by
            rw [List.filter_cons_of_neg (by simp), hpre], hpost⟩
        · rw [List.filter_cons_of_pos (by simp)] at hone
          simp only [List.cons.injEq, Prod.mk.injEq] at hone
          obtain ⟨⟨rfl, -⟩, hrest⟩ := hone
          exact ⟨[], xs, rfl, rfl, hrest⟩
    obtain ⟨pre, post, rfl, hpre, hpost⟩ := hsplit
    unfold reorder_keys
    rw [reorderAux_append]
    have hn1 : (reorderAux pre 0 []).1 = 0 := by
      rw [reorderAux_count, hpre]
      rfl
    have ho1 : (reorderAux pre 0 []).2 = pre.map Prod.fst := by
      rw [reorderAux_append_keys pre 0 [] hpre]
      rfl
    rw [hn1, ho1]
    simp only [reorderAux]
    have hn2 : (reorderAux post (0 + 1) (k :: pre.map Prod.fst)).1 = 1 := by
      rw [reorderAux_count, hpost]
      rfl
    have ho2 : (reorderAux post (0 + 1) (k :: pre.map Prod.fst)).2 =
        k :: (pre.map Prod.fst ++ post.map Prod.fst) := by
      rw [reorderAux_append_keys post _ _ hpost]
      rfl
    refine ⟨pre.map Prod.fst ++ post.map Prod.fst, ?_⟩
    rw [hn2, ho2]
    rfl
  · intro hmany
    unfold reorder_keys
    have h1 := reorderAux_count items 0 []
    rw [if_pos (by omega)]

/-- Witness for `c6_reorder_keys`: only system `b` carries concentration
among `a`, `b`, `c`, so it is rendered first; two concentration systems
raise. -/
theorem c6_reorder_keys_witness :
    (∃ rest, reorder_keys [("a", false), ("b", true), ("c", false)] =
      .ok ("b", "b" :: rest)) ∧
    reorder_keys [("a", true), ("b", true)] = .error .valueError :=
  ⟨(c6_reorder_keys [("a", false), ("b", true), ("c", false)] "b").1
      (by decide),
   (c6_reorder_keys [("a", true), ("b", true)] "b").2 (by decide)⟩

/-- C7, the claim as frozen, is false on the code: a wel entry recorded at
a single package-local time, expanded over two global instants, yields two
paths per layer (one per global instant), both without any timestamp. -/
theorem c7_counterexample :
    getWel "d" "wel" ⟨[1], some [⟨2000, 1, 1, 0, 0, 0⟩], [], []⟩
        [⟨2000, 1, 1, 0, 0, 0⟩, ⟨2000, 1, 2, 0, 0, 0⟩] =
      [(1, [⟨"d", compose ⟨".ipf".data, "wel".data, none, some 1⟩⟩,
            ⟨"d", compose ⟨".ipf".data, "wel".data, none, some 1⟩⟩])] ∧
    (getWel "d" "wel" ⟨[1], some [⟨2000, 1, 1, 0, 0, 0⟩], [], []⟩
        [⟨2000, 1, 1, 0, 0, 0⟩, ⟨2000, 1, 2, 0, 0, 0⟩]).map
      (fun pr => pr.2.length) = [2] := by
  constructor
  · rfl
  · rfl

/-- C7 amended: for every tabular (wel) entry the expander emits, per
unique layer, one identical untimestamped path per global stress-period
instant; the package-local time column plays no role. -/
theorem c7_wel_paths (directory key : String) (df : TabEntry)
    (gt : List DT) (hg : gt ≠ []) :
    getWel directory key df gt =
      (sortedDedupInt df.layers).map fun l =>
        (l, List.replicate gt.length
          ⟨directory, compose ⟨".ipf".data, key.data, none, some l⟩⟩) := by
  have hgi : gt.isEmpty = false := by
    cases gt with
    | nil => exact absurd rfl hg
    | cons x xs => rfl
  simp [getWel, hgi]

/-- Witness for `c7_wel_paths`. -/
theorem c7_wel_paths_witness :
    getWel "d" "wel" ⟨[2, 1], none, [], []⟩ [⟨2000, 1, 1, 0, 0, 0⟩] =
      (sortedDedupInt [2, 1]).map fun l =>
        (l, List.replicate ([⟨2000, 1, 1, 0, 0, 0⟩] : List DT).length
          ⟨"d", compose ⟨".ipf".data, "wel".data, none, some l⟩⟩) :=
  c7_wel_paths "d" "wel" ⟨[2, 1], none, [], []⟩ [⟨2000, 1, 1, 0, 0, 0⟩]
    (by decide)

/-- C5, the claim as frozen, is false on the code: in non-seawat mode the
layer value `-1` is accepted for every entry, not only for entries marked
as applying to the top/recharge layer — here a river entry, which is not a
recharge entry, passes validation with layer `-1`. -/
theorem c5_counterexample :
    checkLayers false (bndLayers 2) "riv-cond-sys1" [-1] = .ok () ∧
    baseName "riv-cond-sys1" ≠ "rch" := by
  constructor
  · rfl
  · decide

/-- C5 amended: layer validation accepts exactly the values in
`[1, layer_count]`, except that `-1` is additionally accepted — for every
entry — when the mode is non-seawat; in seawat mode `-1` is rejected like
any other out-of-range value (in particular `0` and `layer_count + 1` are
always rejected). -/
theorem c5_layer_validation (seawat : Bool) (nlay : Nat) (key : String)
    (ls : List Int) :
    checkLayers seawat (bndLayers nlay) key ls = .ok () ↔
      ∀ l ∈ ls, (l = -1 ∧ seawat = false) ∨ (1 ≤ l ∧ l ≤ (nlay : Int)) := by
  have hmem : ∀ l : Int, l ∈ bndLayers nlay ↔ (1 ≤ l ∧ l ≤ (nlay : Int)) := by
    intro l
    unfold bndLayers
    simp only [List.mem_map, List.mem_range]
    constructor
    · rintro ⟨i, hi, rfl⟩
      omega
    · rintro ⟨h1, h2⟩
      exact ⟨(l - 1).toNat, by omega, by omega⟩
  induction ls with
  | nil => simp [checkLayers]
  | cons l rest ih =>
    simp only [checkLayers]
    by_cases h1 : l = -1 ∧ seawat = false
    · rw [if_pos h1]
      constructor
      · intro hrest t ht
        rcases List.mem_cons.mp ht with rfl | ht2
        · exact Or.inl h1
        · exact ih.mp hrest t ht2
      · intro hall
        exact ih.mpr (fun t ht => hall t (List.mem_cons_of_mem _ ht))
    · rw [if_neg h1]
      by_cases h2 : l ∈ bndLayers nlay
      · rw [if_pos h2]
        constructor
        · intro hrest t ht
          rcases List.mem_cons.mp ht with rfl | ht2
          · exact Or.inr ((hmem t).mp h2)
          · exact ih.mp hrest t ht2
        · intro hall
          exact ih.mpr (fun t ht => hall t (List.mem_cons_of_mem _ ht))
      · rw [if_neg h2]
        constructor
        · intro hfalse
          exact Except.noConfusion hfalse
        · intro hall
          rcases hall l (List.mem_cons_self _ _) with hc | hc
          · exact absurd hc h1
          · exact absurd ((hmem l).mpr hc) h2


/-- The schema lookup of the first loop of `_get_package`: a package name
missing from the registry raises `KeyError("Package {name}.")`; otherwise
the declared field order (absent for single-field packages) is returned. -/
def schemaOrder (pr : String × ArrEntry) : Except PErr (Option (List String)) :=
  match alookup package_schema (baseName pr.1) with
  | none => .error (.keyError ("Package " ++ baseName pr.1 ++ "."))
  | some o => .ok o

/-- The body of the second loop of `_get_package` for one `field`: the data
array is fetched under `name` or `name-field`, but every emitted path is
composed with the loop-leftover `fullname` as its stem name. -/
def staticFieldPaths (package : List (String × ArrEntry))
    (directory fullname field : String) :
    Except PErr (String × List (Int × IPath)) :=
  match alookup package
      (if field = "value" then baseName fullname
       else baseName fullname ++ "-" ++ field) with
  | none => .error (.keyError
      (if field = "value" then baseName fullname
       else baseName fullname ++ "-" ++ field))
  | some da => .ok (field, da.layers.map fun l =>
      (l, (⟨directory,
        compose ⟨".idf".data, fullname.data, none, some l⟩⟩ : IPath)))

/-- `_get_package`: paths for all fields and layers of a static package.
The first loop validates every entry against the schema but overwrites
`fullname`, `name` and `order` on each iteration, so the second loop runs
with the values of the last entry. -/
def getPackage (package : List (String × ArrEntry)) (directory : String) :
    Except PErr (List (String × List (Int × IPath))) :=
  match package.getLast? with
  | none => .ok []
  | some last =>
    match mapE schemaOrder package with
    | .error e => .error e
    | .ok orders =>
      mapE (staticFieldPaths package directory last.1)
        ((orders.getLast?.getD none).getD ["value"])

/-- C10: every path the static expander emits, across all declared fields
of the schema, is composed with one and the same stem name, the full
compound key of the last entry of the package mapping; the field being
expanded never appears in the name. -/
theorem c10_static_paths (package : List (String × ArrEntry))
    (directory fullname : String) (da : ArrEntry)
    (hlast : package.getLast? = some (fullname, da))
    (r : List (String × List (Int × IPath)))
    (hr : getPackage package directory = .ok r) :
    ∀ fld ∈ r, ∀ p ∈ fld.2,
      p.2 = ⟨directory, compose ⟨".idf".data, fullname.data, none, some p.1⟩⟩ := by
  unfold getPackage at hr
  rw [hlast] at hr
  cases hm : mapE schemaOrder package with
  | error e =>
    rw [hm] at hr
    exact Except.noConfusion hr
  | ok orders =>
    rw [hm] at hr
    intro fld hfld
    obtain ⟨field, hfield, hok⟩ := mapE_ok_mem hr fld hfld
    revert hok
    unfold staticFieldPaths
    cases alookup package
        (if field = "value" then baseName fullname
         else baseName fullname ++ "-" ++ field) with
    | none =>
      intro hok
      exact Except.noConfusion hok
    | some db =>
      intro hok
      simp only [Except.ok.injEq] at hok
      subst hok
      intro p hp
      simp only [List.mem_map] at hp
      obtain ⟨l, hl, rfl⟩ := hp
      rfl

/-- Witness for `c10_static_paths`: an `ani` package with an `angle` and a
`factor` entry; the paths of both fields carry the stem name
`ani-factor`, the key of the last entry. -/
theorem c10_static_paths_witness :
    getPackage [("ani-angle", ⟨[1], none, [], []⟩),
        ("ani-factor", ⟨[1], none, [], []⟩)] "d" =
      .ok [("angle", [(1, ⟨"d",
              compose ⟨".idf".data, "ani-factor".data, none, some 1⟩⟩)]),
           ("factor", [(1, ⟨"d",
              compose ⟨".idf".data, "ani-factor".data, none, some 1⟩⟩)])] ∧
    ((1 : Int), (⟨"d",
        compose ⟨".idf".data, "ani-factor".data, none, some 1⟩⟩ : IPath)).2 =
      ⟨"d", compose ⟨".idf".data, "ani-factor".data, none,
        some ((1 : Int), (⟨"d",
          compose ⟨".idf".data, "ani-factor".data, none,
            some 1⟩⟩ : IPath)).1⟩⟩ :=
  ⟨by rfl,
   c10_static_paths
     [("ani-angle", ⟨[1], none, [], []⟩), ("ani-factor", ⟨[1], none, [], []⟩)]
     "d" "ani-factor" ⟨[1], none, [], []⟩ (by rfl)
     [("angle", [(1, ⟨"d",
         compose ⟨".idf".data, "ani-factor".data, none, some 1⟩⟩)]),
      ("factor", [(1, ⟨"d",
         compose ⟨".idf".data, "ani-factor".data, none, some 1⟩⟩)])]
     (by rfl)
     ("angle", [(1, ⟨"d",
         compose ⟨".idf".data, "ani-factor".data, none, some 1⟩⟩)])
     (List.mem_cons_self _ _)
     (1, ⟨"d", compose ⟨".idf".data, "ani-factor".data, none, some 1⟩⟩)
     (List.mem_cons_self _ _)⟩


/-- ASCII lowercasing of `str.lower()` as applied to the package keys. -/
def asciiLowerChar (c : Char) : Char :=
  if 65 ≤ c.toNat ∧ c.toNat ≤ 90 then Char.ofNat (c.toNat + 32) else c

def asciiLower (s : String) : String :=
  String.mk (s.data.map asciiLowerChar)

/-- Dictionary assignment `d[k] = v`: replace in place, else append. -/
def dinsert {α : Type _} : List (String × α) → String → α → List (String × α)
  | [], k, v => [(k, v)]
  | (k0, v0) :: rest, k, v =>
    if k0 = k then (k0, v) :: rest else (k0, v0) :: dinsert rest k v

def entryLayers : Entry → List Int
  | .arr a => a.layers
  | .tab t => t.layers

def entryTimes : Entry → Option (List DT)
  | .arr a => a.times
  | .tab t => t.times

def entryXs : Entry → List ℚ
  | .arr a => a.xs
  | .tab t => t.xs

def entryYs : Entry → List ℚ
  | .arr a => a.ys
  | .tab t => t.ys

def qabs (x : ℚ) : ℚ := if x < 0 then -x else x

def qmin2 (a b : ℚ) : ℚ := if a ≤ b then a else b

def qmax2 (a b : ℚ) : ℚ := if b ≤ a then a else b

/-- `np.min` of a coordinate array; empty data surfaces as an error. -/
def minQ : List ℚ → Except PErr ℚ
  | [] => .error .valueError
  | x :: xs => .ok (xs.foldl qmin2 x)

def maxQ : List ℚ → Except PErr ℚ
  | [] => .error .valueError
  | x :: xs => .ok (xs.foldl qmax2 x)

/-- `np.diff`. -/
def diffQ : List ℚ → List ℚ
  | [] => []
  | [_] => []
  | x :: y :: rest => (y - x) :: diffQ (y :: rest)

/-- `_delta`: first spacing of the coordinate, checked against all
spacings with `np.allclose(dxs, dx, atolx)` — `atolx` lands on the `rtol`
parameter, so the tolerance is `1e-8 + abs(1e-6*dx)*abs(dx)`. -/
def delta (l : List ℚ) : Except PErr ℚ :=
  match diffQ l with
  | [] => .error .indexError
  | d :: ds =>
    if (d :: ds).all fun x =>
        decide (qabs (x - d) ≤ 1 / 100000000 + qabs (d / 1000000) * qabs d)
    then .ok d
    else .error .valueError

/-- The tuple returned by `spatial_reference`. -/
structure SRef where
  dx : ℚ
  xmin : ℚ
  xmax : ℚ
  dy : ℚ
  ymin : ℚ
  ymax : ℚ
deriving DecidableEq, Repr

/-- The equidistant branch of `spatial_reference`: cell sizes from
`_delta`, bounds extended half a cell beyond the midpoint coordinates. -/
def spatialRef (xs ys : List ℚ) : Except PErr SRef :=
  match (if xs.length = 1 then
          match delta ys with
          | .error e => Except.error e
          | .ok d => Except.ok (d, d)
        else if ys.length = 1 then
          match delta xs with
          | .error e => Except.error e
          | .ok d => Except.ok (d, d)
        else
          match delta xs with
          | .error e => Except.error e
          | .ok dx =>
            match delta ys with
            | .error e => Except.error e
            | .ok dy => (Except.ok (dx, dy) : Except PErr (ℚ × ℚ))) with
  | .error e => .error e
  | .ok (dx, dy) =>
    match minQ xs with
    | .error e => .error e
    | .ok xmn =>
      match maxQ xs with
      | .error e => .error e
      | .ok xmx =>
        match minQ ys with
        | .error e => .error e
        | .ok ymn =>
          match maxQ ys with
          | .error e => .error e
          | .ok ymx =>
            .ok ⟨dx, xmn - qabs dx / 2, xmx + qabs dx / 2,
                 dy, ymn - qabs dy / 2, ymx + qabs dy / 2⟩

/-- `_check_input`: wel entries must be tables, everything else arrays;
keys are lowered into a fresh dictionary. -/
def checkInputAux (seawat : Bool) :
    List (String × Entry) → List (String × Entry) →
    Except PErr (List (String × Entry))
  | [], acc => .ok acc
  | (key, v) :: rest, acc =>
    if asciiLower (baseName key) = "wel" ∧ seawat = false then
      match v with
      | .tab _ => checkInputAux seawat rest (dinsert acc (asciiLower key) v)
      | .arr _ => .error .typeError
    else if seawat = true ∧ asciiLower key = "wel-rate" then
      match v with
      | .tab _ => checkInputAux seawat rest (dinsert acc (asciiLower key) v)
      | .arr _ => .error .typeError
    else
      match v with
      | .arr _ => checkInputAux seawat rest (dinsert acc (asciiLower key) v)
      | .tab _ => .error .typeError

def checkInput (model : List (String × Entry)) (seawat : Bool) :
    Except PErr (List (String × Entry)) :=
  checkInputAux seawat model []

/-- `pd.unique`: order of first appearance. -/
def pdUniqueAux : List Int → List Int → List Int
  | [], acc => acc.reverse
  | x :: xs, acc =>
    if x ∈ acc then pdUniqueAux xs acc else pdUniqueAux xs (x :: acc)

def pdUnique (l : List Int) : List Int := pdUniqueAux l []

/-- `sorted` on ints, duplicates kept. -/
def insertIntKeep : List Int → Int → List Int
  | [], x => [x]
  | y :: ys, x => if x < y then x :: y :: ys else y :: insertIntKeep ys x

def sortIntKeep (l : List Int) : List Int := l.foldl insertIntKeep []

/-- `sorted(set(times))`. -/
def insertDT : List DT → DT → List DT
  | [], t => [t]
  | x :: xs, t =>
    if t = x then x :: xs
    else if decide (dtLt t x) then t :: x :: xs
    else x :: insertDT xs t

def sortedDedupDT (l : List DT) : List DT := l.foldl insertDT []

/-- The per-entry body of the `_data_bounds` loop: spatial extremes and
layer values of one entry, validated against the bnd extremes; the time
values of every entry are collected. -/
def boundsScan (seawat : Bool) (layers : List Int)
    (bxmin bxmax bymin bymax : ℚ) :
    List (String × Entry) → Except PErr (List DT)
  | [] => .ok []
  | (key, data) :: rest =>
    match (match data with
      | .tab t =>
        (match minQ t.xs with
         | .error e => Except.error e
         | .ok a =>
           match maxQ t.xs with
           | .error e => Except.error e
           | .ok b =>
             match minQ t.ys with
             | .error e => Except.error e
             | .ok c =>
               match maxQ t.ys with
               | .error e => Except.error e
               | .ok d =>
                 Except.ok (t.times, a, b, c, d, pdUnique t.layers))
      | .arr a =>
        match spatialRef a.xs a.ys with
        | .error e => Except.error e
        | .ok sr =>
          (Except.ok (a.times, sr.xmin, sr.xmax, sr.ymin, sr.ymax, a.layers) :
            Except PErr (Option (List DT) × ℚ × ℚ × ℚ × ℚ × List Int))) with
    | .error e => .error e
    | .ok (tvals, xmn, xmx, ymn, ymx, cl) =>
      match checkLayers seawat layers key cl with
      | .error e => .error e
      | .ok _ =>
        if ¬ xmn ≥ bxmin then .error .valueError
        else if ¬ xmx ≤ bxmax then .error .valueError
        else if ¬ ymn ≥ bymin then .error .valueError
        else if ¬ ymx ≤ bymax then .error .valueError
        else
          match boundsScan seawat layers bxmin bxmax bymin bymax rest with
          | .error e => .error e
          | .ok ts => .ok (tvals.getD [] ++ ts)

/-- The bounds dictionary assembled by `_data_bounds`. -/
structure Bounds where
  nrow : Nat
  ncol : Nat
  nlay : Nat
  dx : ℚ
  dy : ℚ
  xmin : ℚ
  xmax : ℚ
  ymin : ℚ
  ymax : ℚ
  nper : Nat
  times : Option (List DT)
deriving DecidableEq, Repr

/-- `_data_bounds`: the bnd layers must be `1..nlay` when sorted, the bnd
spatial reference bounds every entry, and the unique sorted time values of
all entries fix `nper`. -/
def dataBounds (model : List (String × Entry)) (seawat : Bool) :
    Except PErr Bounds :=
  match alookup model "bnd" with
  | none => .error (.keyError "bnd")
  | some bnd =>
    if sortIntKeep (entryLayers bnd) ≠ bndLayers (entryLayers bnd).length then
      .error .assertionError
    else
      match spatialRef (entryXs bnd) (entryYs bnd) with
      | .error e => .error e
      | .ok sr =>
        match boundsScan seawat (entryLayers bnd)
            sr.xmin sr.xmax sr.ymin sr.ymax model with
        | .error e => .error e
        | .ok ts =>
          match sortedDedupDT ts with
          | [] =>
            .ok ⟨(entryYs bnd).length, (entryXs bnd).length,
              (entryLayers bnd).length, qabs sr.dx, qabs sr.dy,
              sr.xmin, sr.xmax, sr.ymin, sr.ymax, 1, none⟩
          | t :: ts2 =>
            .ok ⟨(entryYs bnd).length, (entryXs bnd).length,
              (entryLayers bnd).length, qabs sr.dx, qabs sr.dy,
              sr.xmin, sr.xmax, sr.ymin, sr.ymax,
              (t :: ts2).length - 1, some (t :: ts2)⟩

/-- The dictionary built by `_parse` from a stress-period key. -/
structure ParsedKey where
  name : String
  field : Option String
  system : Option String
deriving DecidableEq, Repr

/-- The trailing system handling of `_parse`. -/
def parseTail (name : String) (se : SchemaEntry) (fld : Option String)
    (parts : List String) : Except PErr ParsedKey :=
  if se.systems then
    match parts with
    | [] => .ok ⟨name, fld, none⟩
    | s :: parts2 =>
      if parts2 = [] then .ok ⟨name, fld, some s⟩ else .error .runtimeError
  else
    if parts = [] then .ok ⟨name, fld, none⟩ else .error .valueError

/-- `_parse`: package name, then a mandatory valid field when the schema
declares an order, then an optional system when systems are supported. -/
def parseKey (key : String) : Except PErr ParsedKey :=
  match splitDash key with
  | [] => .error .indexError
  | name :: parts =>
    match alookup stress_period_schema name with
    | none => .error (.keyError name)
    | some se =>
      match se.order with
      | some ord =>
        match parts with
        | [] => .error .valueError
        | field :: parts2 =>
          if field ∈ ord then parseTail name se (some field) parts2
          else .error .valueError
      | none => parseTail name se none parts

/-- One element of the `list_package` built by `_groupby_field`. -/
structure Item where
  key : String
  data : Entry
  field : Option String
  system : Option String
deriving DecidableEq, Repr

def mkItem (pr : String × Entry) : Except PErr Item :=
  match parseKey pr.1 with
  | .error e => .error e
  | .ok p => .ok ⟨pr.1, pr.2, p.field, p.system⟩

def itemField (it : Item) : String := it.field.getD "value"

/-- Stable-sort insertion: an element goes after every element whose key
is not greater, as `sorted` keeps equal keys in encounter order. -/
def insertItem : List Item → Item → List Item
  | [], it => [it]
  | y :: ys, it =>
    if strLtB (itemField it).data (itemField y).data then it :: y :: ys
    else y :: insertItem ys it

def sortItems (l : List Item) : List Item := l.foldl insertItem []

def spanField (f : String) : List Item → List Item × List Item
  | [] => ([], [])
  | it :: rest =>
    if itemField it = f then
      match spanField f rest with
      | (a, b) => (it :: a, b)
    else ([], it :: rest)

/-- `itertools.groupby`: consecutive runs of equal field keys. -/
def chunkByAux : Nat → List Item → List (String × List Item)
  | _, [] => []
  | 0, _ :: _ => []
  | fuel + 1, it :: rest =>
    match spanField (itemField it) rest with
    | (grp, rem) => (itemField it, it :: grp) :: chunkByAux fuel rem

def chunkBy (l : List Item) : List (String × List Item) :=
  chunkByAux l.length l

/-- `_sortby_field`: reorder the field groups by the schema order; a field
declared by the schema but absent from the data raises `KeyError`. -/
def sortbyField {α : Type _} (pdata : List (String × α)) (name : String) :
    Except PErr (List (String × α)) :=
  match alookup stress_period_schema name with
  | none => .error (.keyError name)
  | some se =>
    match se.order with
    | none => .ok pdata
    | some ord =>
      mapE (fun f =>
        match alookup pdata f with
        | none => .error (.keyError
            ("Package " ++ name ++ ": " ++ f ++ " is missing."))
        | some v => .ok (f, v)) ord

/-- The dispatch of `_get_period` for one item: a table of a wel package
goes to `_get_wel`, everything else to `_get_system`. -/
def systemPaths (name directory : String) (gt : List DT) (it : Item) :
    Except PErr (List (Int × List IPath)) :=
  match it.data with
  | .tab t =>
    if name = "wel" then .ok (getWel directory it.key t gt)
    else getSystem directory it.key t.layers t.times gt
  | .arr a => getSystem directory it.key a.layers a.times gt

/-- The inner loop of `_get_period`: one system dictionary per field
group, keyed by the system name (or `default_system`). -/
def systemsOf (name directory : String) (gt : List DT) :
    List Item → List (String × List (Int × List IPath)) →
    Except PErr (List (String × List (Int × List IPath)))
  | [], acc => .ok acc
  | it :: rest, acc =>
    match systemPaths name directory gt it with
    | .error e => .error e
    | .ok sys =>
      systemsOf name directory gt rest
        (dinsert acc (it.system.getD "default_system") sys)

/-- `_get_period`: parse every key, group by field, expand each system,
then reorder the fields by the schema. -/
def getPeriod (package : List (String × Entry)) (gt : List DT)
    (directory : String) :
    Except PErr (List (String × List (String × List (Int × List IPath)))) :=
  match package with
  | [] => .error .indexError
  | (k0, _) :: _ =>
    match mapE mkItem package with
    | .error e => .error e
    | .ok items =>
      match mapE (fun grp =>
          match systemsOf (baseName k0) directory gt grp.2 [] with
          | .error e => .error e
          | .ok sysd => .ok (grp.1, sysd)) (chunkBy (sortItems items)) with
      | .error e => .error e
      | .ok pdata => sortbyField pdata (baseName k0)

/-- `_pop_package`: split off every entry of one package. -/
def popPackage (model : List (String × Entry)) (name : String) :
    (List (String × Entry)) × (List (String × Entry)) :=
  (model.filter fun pr => !(baseName pr.1 == name),
   model.filter fun pr => baseName pr.1 == name)

/-- The set of base names; python iterates a set, here modelled in order
of first appearance. -/
def firstDedupAux : List String → List String → List String
  | [], acc => acc.reverse
  | x :: xs, acc =>
    if x ∈ acc then firstDedupAux xs acc else firstDedupAux xs (x :: acc)

def firstDedup (l : List String) : List String := firstDedupAux l []

/-- The dispatch loop of `get_runfile` over the package names. -/
def runPackages (gt : List DT) (directory : String) :
    List String → List (String × Entry) →
    List (String × List (String × List (Int × IPath))) →
    List (String × List (String × List (String × List (Int × List IPath)))) →
    Except PErr ((List (String × Entry)) ×
      (List (String × List (String × List (Int × IPath)))) ×
      (List (String × List (String × List (String × List (Int × List IPath))))))
  | [], consumed, pk, sp => .ok (consumed, pk, sp)
  | name :: rest, consumed, pk, sp =>
    match popPackage consumed name with
    | (remaining, package) =>
      if (alookup package_schema name).isSome then
        match mapE (fun pr =>
            match pr.2 with
            | .arr a => .ok (pr.1, a)
            | .tab _ => (.error PErr.typeError :
                Except PErr (String × ArrEntry))) package with
        | .error e => .error e
        | .ok arrPkg =>
          match getPackage arrPkg (directory ++ "/" ++ name) with
          | .error e => .error e
          | .ok pdata =>
            runPackages gt directory rest remaining (pk ++ [(name, pdata)]) sp
      else if (alookup stress_period_schema name).isSome then
        match getPeriod package gt (directory ++ "/" ++ name) with
        | .error e => .error e
        | .ok sdata =>
          runPackages gt directory rest remaining pk (sp ++ [(name, sdata)])
      else .error .runtimeError

/-- The runfile dictionary, restricted to the entries `get_runfile`
derives from the model (the remaining defaults are copied scalars). -/
structure Runfile where
  nrow : Nat
  ncol : Nat
  nlay : Nat
  cellsize : ℚ
  xmin : ℚ
  xmax : ℚ
  ymin : ℚ
  ymax : ℚ
  nper : Nat
  output : List (String × List Int)
  packages : List (String × List (String × List (Int × IPath)))
  stress_periods :
    List (String × List (String × List (String × List (Int × List IPath))))
  time_discretisation : List (String × ℚ)
deriving Repr

/-- `get_runfile`, with the module-level `default_runfile["output"]`
dictionary threaded explicitly: `runfile_parameters = default_runfile.copy()`
is shallow, so `runfile_parameters["output"]` aliases the module dict and
the `shd` assignment writes through to it. -/
def getRunfile (st : List (String × List Int)) (model : List (String × Entry))
    (directory : String) :
    (List (String × List Int)) × Except PErr Runfile :=
  match checkInput model false with
  | .error e => (st, .error e)
  | .ok consumed =>
    match dataBounds model false with
    | .error e => (st, .error e)
    | .ok b =>
      match runPackages (b.times.getD []) directory
          (firstDedup (consumed.map fun pr => baseName pr.1)) consumed [] [] with
      | .error e => (st, .error e)
      | .ok (leftover, pk, sp) =>
        if leftover.isEmpty = false then (st, .error .runtimeError)
        else
          match alookup model "bnd" with
          | none => (st, .error (.keyError "bnd"))
          | some bnd =>
            (dinsert st "shd" (entryLayers bnd),
             .ok ⟨b.nrow, b.ncol, b.nlay, b.dx,
               b.xmin, b.xmax, b.ymin, b.ymax, b.nper,
               dinsert st "shd" (entryLayers bnd), pk, sp,
               if (b.times.getD []).isEmpty then [("steady-state", 0)]
               else timeDiscretisation (b.times.getD [])⟩)


/-- The grid coordinates of the end-to-end scenario. -/
def scenXs : List ℚ := [1/2, 3/2, 5/2]

def scenYs : List ℚ := [1/2, 3/2]

def dt1 : DT := ⟨2000, 1, 1, 0, 0, 0⟩

def dt2 : DT := ⟨2000, 1, 2, 0, 0, 0⟩

def dt3 : DT := ⟨2000, 1, 3, 0, 0, 0⟩

/-- The scenario model as frozen in the specification: only the stage and
cond fields of the river package are supplied; the terminal instant rides
on the bnd time coordinate, the only mechanism the code offers for extra
times. -/
def scenarioModelMissing : List (String × Entry) :=
  [("bnd", .arr ⟨[1, 2], some [dt3], scenXs, scenYs⟩),
   ("khv", .arr ⟨[1, 2], none, scenXs, scenYs⟩),
   ("riv-stage-sys1", .arr ⟨[1, 2], some [dt1, dt2], scenXs, scenYs⟩),
   ("riv-cond-sys1", .arr ⟨[1, 2], some [dt1, dt2], scenXs, scenYs⟩)]

/-- The realizable scenario: all four schema fields of the river
package. -/
def scenarioModel : List (String × Entry) :=
  [("bnd", .arr ⟨[1, 2], some [dt3], scenXs, scenYs⟩),
   ("khv", .arr ⟨[1, 2], none, scenXs, scenYs⟩),
   ("riv-stage-sys1", .arr ⟨[1, 2], some [dt1, dt2], scenXs, scenYs⟩),
   ("riv-cond-sys1", .arr ⟨[1, 2], some [dt1, dt2], scenXs, scenYs⟩),
   ("riv-bot-sys1", .arr ⟨[1, 2], some [dt1, dt2], scenXs, scenYs⟩),
   ("riv-inff-sys1", .arr ⟨[1, 2], some [dt1, dt2], scenXs, scenYs⟩)]

def rivPath (f : String) (t : DT) (l : Int) : IPath :=
  ⟨"d/riv",
   compose ⟨".idf".data, ("riv-" ++ f ++ "-sys1").data, some t, some l⟩⟩

section

attribute [local semireducible] Rat.add Rat.mul Rat.sub Rat.inv

/-- C4, as frozen, is false on the code: the scenario supplies only the
stage and cond fields of the river package, but the schema order demands
cond, stage, bot and inff, so composition raises a `KeyError` for the
missing bot field instead of returning a runfile dictionary at all. -/
theorem c4_counterexample :
    (getRunfile [] scenarioModelMissing "d").2 =
      .error (.keyError "Package riv: bot is missing.") := by rfl

/-- C4 amended: with the full river field set and the terminal instant
2000-01-03 carried by a time coordinate, the runfile has exactly 2 stress
periods of 1.0 day each, and the river tree holds, per field and layer,
one path per global instant — 3 timestamped paths, forward filled to the
stamps 20000101, 20000102, 20000102 — not the 2 the specification
expects. -/
theorem c4_scenario :
    (getRunfile [] scenarioModel "d").2.map Runfile.nper = .ok 2 ∧
    (getRunfile [] scenarioModel "d").2.map Runfile.time_discretisation =
      .ok [("20000101000000", (1 : ℚ)), ("20000102000000", (1 : ℚ))] ∧
    (getRunfile [] scenarioModel "d").2.map
        (fun r => alookup r.stress_periods "riv") =
      .ok (some
        [("cond", [("sys1",
           [(1, [rivPath "cond" dt1 1, rivPath "cond" dt2 1,
                 rivPath "cond" dt2 1]),
            (2, [rivPath "cond" dt1 2, rivPath "cond" dt2 2,
                 rivPath "cond" dt2 2])])]),
         ("stage", [("sys1",
           [(1, [rivPath "stage" dt1 1, rivPath "stage" dt2 1,
                 rivPath "stage" dt2 1]),
            (2, [rivPath "stage" dt1 2, rivPath "stage" dt2 2,
                 rivPath "stage" dt2 2])])]),
         ("bot", [("sys1",
           [(1, [rivPath "bot" dt1 1, rivPath "bot" dt2 1,
                 rivPath "bot" dt2 1]),
            (2, [rivPath "bot" dt1 2, rivPath "bot" dt2 2,
                 rivPath "bot" dt2 2])])]),
         ("inff", [("sys1",
           [(1, [rivPath "inff" dt1 1, rivPath "inff" dt2 1,
                 rivPath "inff" dt2 1]),
            (2, [rivPath "inff" dt1 2, rivPath "inff" dt2 2,
                 rivPath "inff" dt2 2])])])]) :=
  ⟨rfl, rfl, rfl⟩

end


theorem dinsert_dinsert {α : Type _} (l : List (String × α)) (k : String)
    (v : α) : dinsert (dinsert l k v) k v = dinsert l k v := by
  induction l with
  | nil => simp [dinsert]
  | cons x xs ih =>
    obtain ⟨k0, v0⟩ := x
    by_cases h : k0 = k
    · simp [dinsert, h]
    · simp [dinsert, h, ih]

/-- Common consequence of a call of `get_runfile` that raises: the module
dictionary is untouched and there is no result to inspect. -/
theorem getRunfileStateError (st : List (String × List Int))
    (model : List (String × Entry)) (directory : String) (e : PErr)
    (k : getRunfile st model directory = (st, .error e)) :
    (getRunfile (getRunfile st model directory).1 model directory).2 =
      (getRunfile st model directory).2 ∧
    (∀ e2, (getRunfile st model directory).2 = .error e2 →
      (getRunfile st model directory).1 = st) ∧
    (∀ r, (getRunfile st model directory).2 = .ok r →
      (getRunfile st model directory).1 = r.output ∧
      ∃ bnd, alookup model "bnd" = some bnd ∧
        r.output = dinsert st "shd" (entryLayers bnd)) := by
  refine ⟨by simp [k], fun _ _ => by simp [k], fun r hr => ?_⟩
  rw [k] at hr
  exact Except.noConfusion hr

/-- C9 amended: the schema registries and the scalar defaults are
read-only, but the nested `output` dictionary of the module-level
`default_runfile` is written through on every successful call: afterwards
it equals the returned `output` table, the prior table with `shd` set to
the bnd layers. A raising call leaves it untouched, and a second call on
the same model returns an equal runfile, since re-upserting `shd` is
idempotent — the observable idempotence the specification claims holds
even though its no-mutation claim does not. -/
theorem c9_module_state (st : List (String × List Int))
    (model : List (String × Entry)) (directory : String) :
    (getRunfile (getRunfile st model directory).1 model directory).2 =
      (getRunfile st model directory).2 ∧
    (∀ e2, (getRunfile st model directory).2 = .error e2 →
      (getRunfile st model directory).1 = st) ∧
    (∀ r, (getRunfile st model directory).2 = .ok r →
      (getRunfile st model directory).1 = r.output ∧
      ∃ bnd, alookup model "bnd" = some bnd ∧
        r.output = dinsert st "shd" (entryLayers bnd)) := by
  cases hc : checkInput model false with
  | error e =>
    exact getRunfileStateError st model directory e (by simp [getRunfile, hc])
  | ok consumed =>
    cases hd : dataBounds model false with
    | error e =>
      exact getRunfileStateError st model directory e
        (by simp [getRunfile, hc, hd])
    | ok b =>
      cases hrp : runPackages (b.times.getD []) directory
          (firstDedup (consumed.map fun pr => baseName pr.1))
          consumed [] [] with
      | error e =>
        exact getRunfileStateError st model directory e
          (by simp [getRunfile, hc, hd, hrp])
      | ok trip =>
        obtain ⟨lf, pk, sp⟩ := trip
        cases hl : lf.isEmpty with
        | false =>
          exact getRunfileStateError st model directory .runtimeError
            (by simp [getRunfile, hc, hd, hrp, hl])
        | true =>
          obtain ⟨o, ha⟩ : ∃ o, alookup model "bnd" = o := ⟨_, rfl⟩
          cases o with
          | none =>
            exact getRunfileStateError st model directory (.keyError "bnd")
              (by simp [getRunfile, hc, hd, hrp, hl, ha])
          | some bnd =>
            have k1 : getRunfile st model directory =
                (dinsert st "shd" (entryLayers bnd),
                 .ok ⟨b.nrow, b.ncol, b.nlay, b.dx, b.xmin, b.xmax, b.ymin,
                   b.ymax, b.nper, dinsert st "shd" (entryLayers bnd), pk, sp,
                   if (b.times.getD []).isEmpty then [("steady-state", 0)]
                   else timeDiscretisation (b.times.getD [])⟩) := by
              simp [getRunfile, hc, hd, hrp, hl, ha]
            have k2 : getRunfile (dinsert st "shd" (entryLayers bnd))
                model directory =
                (dinsert st "shd" (entryLayers bnd),
                 .ok ⟨b.nrow, b.ncol, b.nlay, b.dx, b.xmin, b.xmax, b.ymin,
                   b.ymax, b.nper, dinsert st "shd" (entryLayers bnd), pk, sp,
                   if (b.times.getD []).isEmpty then [("steady-state", 0)]
                   else timeDiscretisation (b.times.getD [])⟩) := by
              simp [getRunfile, hc, hd, hrp, hl, ha, dinsert_dinsert]
            refine ⟨by simp only [k1, k2], fun e2 h2 => ?_, fun r hr => ?_⟩
            · rw [k1] at h2
              exact Except.noConfusion h2
            · rw [k1] at hr
              injection hr with h
              subst h
              exact ⟨by simp [k1], bnd, ha, rfl⟩

section

attribute [local semireducible] Rat.add Rat.mul Rat.sub Rat.inv

/-- A one-package model exercising the module-state write. -/
def miniModel : List (String × Entry) :=
  [("bnd", .arr ⟨[1], none, [1/2, 3/2, 5/2], [1/2, 3/2]⟩)]

/-- The runfile `get_runfile` composes for `miniModel`. -/
def miniRunfile : Runfile :=
  ⟨2, 3, 1, 1, 0, 3, 0, 2, 1, [("shd", [1])],
   [("bnd", [("value",
      [(1, ⟨"d/bnd", compose ⟨".idf".data, "bnd".data, none, some 1⟩⟩)])])],
   [], [("steady-state", 0)]⟩

/-- C9, as frozen, is false on the code: one successful composition
changes the module-level `output` table from empty to one holding the shd
entry, because the shallow `default_runfile.copy()` shares the nested
dictionary. -/
theorem c9_counterexample :
    (getRunfile [] miniModel "d").1 = [("shd", [(1 : Int)])] ∧
    ([] : List (String × List Int)) ≠ [("shd", [(1 : Int)])] :=
  ⟨by rfl, by decide⟩

/-- Witness for `c9_module_state`: on the concrete model the composed
output table and the threaded module dictionary coincide. -/
theorem c9_module_state_witness :
    (getRunfile [] miniModel "d").2 = .ok miniRunfile ∧
    (getRunfile [] miniModel "d").1 = miniRunfile.output :=
  ⟨by rfl,
   ((c9_module_state [] miniModel "d").2.2 miniRunfile (by rfl)).1⟩

end

end Imod
